import Mathlib

/-!
# Formatted I/O and type conversion in the Go tutorial programs

The two programs `unit-1-fmt/main.go` and `unit-2-type-convertion/main.go`
consist of calls to Go's built-in integer conversions and to the standard
packages `strconv` and `fmt`.  This development embeds the operations the
programs use: the conversions `int8(i)`, `int32(i)`, `int64(i)`, `uint(signed)`,
the functions `strconv.Itoa`, `strconv.Atoi`, and the parts of `fmt` printing and
scanning that the programs exercise.  Go `int` and `uint` are 64 bits wide
(the expected output `18446744073709551574` recorded in the source fixes this).

What the programs do is decided by the library functions they call, so those
functions are embedded as well, function by function and under their Go
names, from the Go standard library (`strconv/atoi.go`, `strconv/itoa.go`,
`fmt/print.go`, `fmt/format.go`, `fmt/scan.go`), at the arguments the programs
pass: base 10, no flags, width or precision in a format, ASCII input.  A Go
string is a list of bytes; machine integers are `Int` or `Nat` with the
wrap-around written out.  Where a library function could index outside an
array or meets input outside the embedded part, the embedded function says so
in its result instead of returning a value.
-/

namespace Go

/-! ## Integer conversions (Go language: conversions between integer types) -/

/-- The low `w` bits of the two's-complement pattern of `v`, read as an
unsigned number.  A Go conversion to an unsigned integer type of width `w`
sign-extends the operand and keeps these bits. -/
def truncateUnsigned (w : Nat) (v : Int) : Int :=
  v % 2 ^ w

/-- The low `w` bits of the two's-complement pattern of `v`, read as a signed
number: the top kept bit is the sign bit. -/
def truncateSigned (w : Nat) (v : Int) : Int :=
  let u := v % 2 ^ w
  if 2 ^ (w - 1) ≤ u then u - 2 ^ w else u

/-- Conversion of an integer value to a fixed-width integer type: truncation
of the bit pattern, never a range check. -/
def ToFixedWidth (v : Int) (w : Nat) (signed : Bool) : Int :=
  if signed then truncateSigned w v else truncateUnsigned w v

/-- Go conversion `int8(v)` (`main.go` of unit 2, `var i8 int8 = int8(i)`). -/
def int8 (v : Int) : Int := ToFixedWidth v 8 true

/-- Go conversion `int32(v)` (`var i32 int32 = int32(i)`). -/
def int32 (v : Int) : Int := ToFixedWidth v 32 true

/-- Go conversion `int64(v)` (`var i64 int64 = int64(i)`). -/
def int64 (v : Int) : Int := ToFixedWidth v 64 true

/-- Go conversion `int(v)`, the 64-bit `int`. -/
def int (v : Int) : Int := ToFixedWidth v 64 true

/-- Go conversion `uint8(v)`. -/
def uint8 (v : Int) : Int := ToFixedWidth v 8 false

/-- Go conversion `uint(v)` to the 64-bit `uint`
(`var unsigned uint = uint(signed)`). -/
def uint (v : Int) : Int := ToFixedWidth v 64 false

/-- Go conversion `uint64(v)`. -/
def uint64 (v : Int) : Int := ToFixedWidth v 64 false

/-- Smallest value of the 64-bit `int`. -/
def minInt : Int := -(2 ^ 63)

/-- Largest value of the 64-bit `int`. -/
def maxInt : Int := 2 ^ 63 - 1


/-! ## Strings -/

/-- A Go `byte`. -/
abbrev byte := Fin 256

/-- A Go string literal as the byte sequence of its UTF-8 encoding. -/
def str (s : String) : List byte :=
  s.data.flatMap fun c => (String.utf8EncodeChar c).map UInt8.val

/-! ## Package strconv

Files `strconv/atoi.go` (`Atoi`, `ParseInt`, `ParseUint`) and
`strconv/itoa.go` (`Itoa`, `FormatInt`, `small`, `formatBits`), at base 10;
then `strconv/atof.go` (`ParseFloat` at 64 bits) and `strconv/ftoa.go` with
`strconv/decimal.go` (the format `f`).  A `float64` is held as its 64 bits
(`math.Float64bits`).  The parsing of a floating-point text is embedded
function by function; the two places where the library works on an array of
decimal digits by repeated shifts (`floatBits`, `Shift`) are exact
computations, and are embedded as the same computations on natural
numbers. -/

namespace strconv

/-- The error values `strconv.ErrSyntax`, `strconv.ErrRange`, and the error
made by `bitSizeError`. -/
inductive Err where
  | ErrSyntax
  | ErrRange
  | ErrBitSize
  deriving DecidableEq

/-- Type `strconv.NumError`: the failing function, the input, the reason. -/
structure NumError where
  Func : String
  Num : List byte
  Err : Err
  deriving DecidableEq

/-- Function `syntaxError(fn, str)`. -/
def syntaxError (fn : String) (s : List byte) : NumError := ⟨fn, s, Err.ErrSyntax⟩

/-- Function `rangeError(fn, str)`. -/
def rangeError (fn : String) (s : List byte) : NumError := ⟨fn, s, Err.ErrRange⟩

/-- Function `bitSizeError(fn, str, bitSize)`. -/
def bitSizeError (fn : String) (s : List byte) : NumError := ⟨fn, s, Err.ErrBitSize⟩

/-- Constant `IntSize`, the size in bits of an `int`. -/
def IntSize : Nat := 64

/-- Constant `maxUint64`. -/
def maxUint64 : Nat := 2 ^ 64 - 1

/-- Function `lower(c)`: `c | ('x' - 'X')`. -/
def lower (c : Nat) : Nat := c ||| 32

/-- The digit switch of the `ParseUint` loop at `base = 10`, `base0 = false`:
`some d` for a digit or letter, `none` for the `default` case. -/
def digitVal (c : byte) : Option Nat :=
  if 48 ≤ c.val ∧ c.val ≤ 57 then some (c.val - 48)
  else if 97 ≤ lower c.val ∧ lower c.val ≤ 122 then some (lower c.val - 97 + 10)
  else none

/-- The loop `for _, c := range []byte(s)` of `ParseUint` at base 10, from
the accumulated `n`; the `uint64` arithmetic wraps modulo `2^64`. -/
def parseUintLoop (fn : String) (s0 : List byte) (maxVal : Nat) :
    List byte → Nat → Nat × Option NumError
  | [], n => (n, none)
  | c :: rest, n =>
    match digitVal c with
    | none => (0, some (syntaxError fn s0))
    | some d =>
      if d ≥ 10 then (0, some (syntaxError fn s0))
      else if n ≥ maxUint64 / 10 + 1 then (maxVal, some (rangeError fn s0))
      else
        let n10 := (n * 10) % 2 ^ 64
        let n1 := (n10 + d) % 2 ^ 64
        if n1 < n10 ∨ n1 > maxVal then (maxVal, some (rangeError fn s0))
        else parseUintLoop fn s0 maxVal rest n1

/-- Function `strconv.ParseUint(s, 10, bitSize)`: base 10 is a valid base, so
`base0` is false and neither a prefix nor an underscore is looked for;
`cutoff` is `maxUint64/10 + 1` and `maxVal` is `1<<bitSize - 1` in `uint64`. -/
def ParseUint (s : List byte) (bitSize : Nat) : Nat × Option NumError :=
  if s = [] then (0, some (syntaxError "ParseUint" s))
  else if bitSize > 64 then (0, some (bitSizeError "ParseUint" s))
  else
    let bitSize := if bitSize = 0 then IntSize else bitSize
    let maxVal := (2 ^ bitSize - 1) % 2 ^ 64
    parseUintLoop "ParseUint" s maxVal s 0

/-- The second half of `ParseInt`, after the unsigned conversion: the range
check against `cutoff = 1 << (bitSize-1)`, which returns `cutoff - 1` or
`-cutoff` with a range error, and the sign. -/
def parseIntRange (s0 : List byte) (neg : Bool) (un : Nat) (bitSize : Nat) :
    Int × Option NumError :=
  let bitSize := if bitSize = 0 then IntSize else bitSize
  let cutoff : Nat := (2 ^ (bitSize - 1)) % 2 ^ 64
  if !neg ∧ un ≥ cutoff then (int64 (cutoff - 1 : Nat), some (rangeError "ParseInt" s0))
  else if neg ∧ un > cutoff then (int64 (-(int64 cutoff)), some (rangeError "ParseInt" s0))
  else
    let n := int64 un
    (if neg then int64 (-n) else n, none)

/-- Function `strconv.ParseInt(s, 10, bitSize)`: the sign is picked off, the
rest goes to `ParseUint`; an error other than a range error is returned with
value 0. -/
def ParseInt (s : List byte) (bitSize : Nat) : Int × Option NumError :=
  match s with
  | [] => (0, some (syntaxError "ParseInt" s))
  | c0 :: tl =>
    let s0 := s
    let neg := decide (c0.val = 45)
    let s := if c0.val = 43 then tl else if c0.val = 45 then tl else s
    let (un, err) := ParseUint s bitSize
    match err with
    | some e =>
      if e.Err ≠ Err.ErrRange then (0, some { e with Func := "ParseInt", Num := s0 })
      else parseIntRange s0 neg un bitSize
    | none => parseIntRange s0 neg un bitSize

/-- The loop of the fast path of `Atoi`: `ch -= 0x30` on a byte, then
`n = n*10 + int(ch)`; `none` when a byte is not a digit. -/
def atoiLoop : List byte → Int → Option Int
  | [], n => some n
  | ch :: rest, n =>
    let ch := (ch.val + 256 - 48) % 256
    if ch > 9 then none else atoiLoop rest (int (n * 10 + int ch))

/-- Function `strconv.Atoi(s)` on a 64-bit platform: the fast path for texts
of 1 to 18 bytes, and `ParseInt(s, 10, 0)` for the others, with the function
name of the error changed to `Atoi`. -/
def Atoi (s : List byte) : Int × Option NumError :=
  let sLen := s.length
  if 0 < sLen ∧ sLen < 19 then
    let s0 := s
    let c0 := s.headD 0
    let s := if c0.val = 45 ∨ c0.val = 43 then s.tail else s
    if (c0.val = 45 ∨ c0.val = 43) ∧ s.length < 1 then (0, some (syntaxError "Atoi" s0))
    else
      match atoiLoop s 0 with
      | none => (0, some (syntaxError "Atoi" s0))
      | some n => (if c0.val = 45 then int (-n) else n, none)
  else
    let (i64, err) := ParseInt s 0
    (int i64, err.map fun nerr => { nerr with Func := "Atoi" })

/-- Constant `digits`. -/
def digits : List byte := str "0123456789abcdefghijklmnopqrstuvwxyz"

/-- Constant `smallsString`: the two-digit texts of 0..99.  The functions
below index it within its 200 bytes. -/
def smallsString : List byte := str
  ("00010203040506070809" ++ "10111213141516171819" ++ "20212223242526272829" ++
   "30313233343536373839" ++ "40414243444546474849" ++ "50515253545556575859" ++
   "60616263646566676869" ++ "70717273747576777879" ++ "80818283848586878889" ++
   "90919293949596979899")

/-- Function `small(i)`: the text of `0 ≤ i < 100`. -/
def small (i : Nat) : List byte :=
  if i < 10 then (digits.drop i).take 1
  else (smallsString.drop (i * 2)).take 2

/-- The loop `for us >= 100` of `formatBits` at base 10.  `i` is the index
into the 65-byte array `a`, and the list is the filled tail `a[i:]`; each round
moves the index down by two and stores two bytes.  The result is `none` when
the index would leave the array (Go: a run-time panic). -/
def formatBitsLoop : Nat → Nat → List byte → Option (Nat × Nat × List byte)
  | i + 2, us, a =>
    if us ≥ 100 then
      let is := us % 100 * 2
      formatBitsLoop i (us / 100)
        (smallsString.getD is 0 :: smallsString.getD (is + 1) 0 :: a)
    else some (i + 2, us, a)
  | i, us, a => if us ≥ 100 then none else some (i, us, a)

/-- Function `formatBits(nil, u, 10, neg, false)`: the string result. -/
def formatBits (u : Nat) (neg : Bool) : Option (List byte) :=
  let u := if neg then (2 ^ 64 - u) % 2 ^ 64 else u
  match formatBitsLoop 65 u [] with
  | none => none
  | some (i, us, a) =>
    let is := us * 2
    if i < 1 then none
    else
      let i := i - 1
      let a := smallsString.getD (is + 1) 0 :: a
      if us ≥ 10 then
        if i < 1 then none
        else
          let i := i - 1
          let a := smallsString.getD is 0 :: a
          if neg then (if i < 1 then none else some ((45 : byte) :: a)) else some a
      else
        if neg then (if i < 1 then none else some ((45 : byte) :: a)) else some a

/-- Function `strconv.FormatInt(i, 10)`; `none` when `formatBits` would
index outside its array. -/
def FormatInt (i : Int) : Option (List byte) :=
  if 0 ≤ i ∧ i < 100 then some (small i.toNat)
  else formatBits (uint64 i).toNat (decide (i < 0))

/-- Function `strconv.Itoa(i)`: `FormatInt(int64(i), 10)`. -/
def Itoa (i : Int) : Option (List byte) := FormatInt (int64 i)

/-! ### File `strconv/atof.go` -/

/-- The bits of `math.Inf(sign)`. -/
def infBits (neg : Bool) : Nat := if neg then 0xFFF0000000000000 else 0x7FF0000000000000

/-- The bits of `math.NaN()`. -/
def nanBits : Nat := 0x7FF8000000000001

/-- Function `commonPrefixLenIgnoreCase(s, prefix)`; `prefix` is lower-case. -/
def commonPrefixLenIgnoreCase : List byte → List byte → Nat
  | c :: s, p :: pre =>
    let c := if 65 ≤ c.val ∧ c.val ≤ 90 then c.val + 32 else c.val
    if c ≠ p.val then 0 else commonPrefixLenIgnoreCase s pre + 1
  | _, _ => 0

/-- The case `'i', 'I'` of `special`, entered directly or by falling through
from a sign. -/
def specialInf (s : List byte) (neg : Bool) (nsign : Nat) : Option (Nat × Nat) :=
  let n := commonPrefixLenIgnoreCase s (str "infinity")
  let n := if 3 < n ∧ n < 8 then 3 else n
  if n = 3 ∨ n = 8 then some (infBits neg, nsign + n) else none

/-- Function `special(s)`: the bits and the length read when `s` starts with
an infinity or a NaN. -/
def special (s : List byte) : Option (Nat × Nat) :=
  match s with
  | [] => none
  | c :: rest =>
    if c.val = 43 ∨ c.val = 45 then specialInf rest (decide (c.val = 45)) 1
    else if c.val = 105 ∨ c.val = 73 then specialInf s false 0
    else if c.val = 110 ∨ c.val = 78 then
      if commonPrefixLenIgnoreCase s (str "nan") = 3 then some (nanBits, 3) else none
    else none

/-- The loop of `underscoreOK`; `saw` is the last kind of character seen. -/
def underscoreOKLoop (hex : Bool) : List byte → Nat → Bool
  | [], saw => saw ≠ 95
  | c :: rest, saw =>
    if (48 ≤ c.val ∧ c.val ≤ 57) ∨ (hex ∧ 97 ≤ lower c.val ∧ lower c.val ≤ 102) then
      underscoreOKLoop hex rest 48
    else if c.val = 95 then
      if saw ≠ 48 then false else underscoreOKLoop hex rest 95
    else if saw = 95 then false
    else underscoreOKLoop hex rest 33

/-- Function `underscoreOK(s)`: underscores only between digits, or between a
base prefix and a digit. -/
def underscoreOK (s : List byte) : Bool :=
  let s := match s with
    | c :: rest => if c.val = 45 ∨ c.val = 43 then rest else s
    | [] => s
  match s with
  | c0 :: c1 :: rest =>
    if c0.val = 48 ∧ (lower c1.val = 98 ∨ lower c1.val = 111 ∨ lower c1.val = 120) then
      underscoreOKLoop (lower c1.val = 120) rest 48
    else underscoreOKLoop false s 94
  | _ => underscoreOKLoop false s 94

/-- The local variables of the digit loop of `readFloat`. -/
structure readState where
  mantissa : Nat
  nd : Int
  ndMant : Int
  dp : Int
  sawdot : Bool
  sawdigits : Bool
  trunc : Bool
  underscores : Bool
  deriving DecidableEq

/-- The loop `loop:` of `readFloat`: the state and the text not consumed. -/
def readFloatLoop (base : Nat) (maxMantDigits : Int) : List byte → readState →
    readState × List byte
  | [], st => (st, [])
  | c :: rest, st =>
    if c.val = 95 then readFloatLoop base maxMantDigits rest { st with underscores := true }
    else if c.val = 46 then
      if st.sawdot then (st, c :: rest)
      else readFloatLoop base maxMantDigits rest { st with sawdot := true, dp := st.nd }
    else if 48 ≤ c.val ∧ c.val ≤ 57 then
      let st : readState := { st with sawdigits := true }
      if c.val = 48 ∧ st.nd = (0 : Int) then
        readFloatLoop base maxMantDigits rest { st with dp := st.dp - 1 }
      else
        let st : readState := { st with nd := st.nd + 1 }
        if st.ndMant < maxMantDigits then
          readFloatLoop base maxMantDigits rest
            { st with mantissa := (st.mantissa * base % 2 ^ 64 + (c.val - 48)) % 2 ^ 64,
                      ndMant := st.ndMant + 1 }
        else if c.val ≠ 48 then
          readFloatLoop base maxMantDigits rest { st with trunc := true }
        else readFloatLoop base maxMantDigits rest st
    else if base = 16 ∧ 97 ≤ lower c.val ∧ lower c.val ≤ 102 then
      let st : readState := { st with sawdigits := true, nd := st.nd + 1 }
      if st.ndMant < maxMantDigits then
        readFloatLoop base maxMantDigits rest
          { st with mantissa := (st.mantissa * 16 % 2 ^ 64 + (lower c.val - 97 + 10)) % 2 ^ 64,
                    ndMant := st.ndMant + 1 }
      else readFloatLoop base maxMantDigits rest { st with trunc := true }
    else (st, c :: rest)

/-- The loop over the exponent digits in `readFloat` and `(*decimal).set`:
the exponent, capped once it reaches 10000, whether an underscore was seen,
and the text not consumed. -/
def readExpLoop : List byte → Nat → Bool → Nat × Bool × List byte
  | [], e, u => (e, u, [])
  | c :: rest, e, u =>
    if (48 ≤ c.val ∧ c.val ≤ 57) ∨ c.val = 95 then
      if c.val = 95 then readExpLoop rest e true
      else readExpLoop rest (if e < 10000 then e * 10 + c.val - 48 else e) u
    else (e, u, c :: rest)

/-- The results of `readFloat`. -/
structure floatRead where
  mantissa : Nat
  exp : Int
  neg : Bool
  trunc : Bool
  hex : Bool
  i : Nat
  ok : Bool
  deriving DecidableEq

/-- What reading the optional exponent gives: whether the text was well
formed, the signed exponent, whether an underscore was seen, whether an
exponent was there at all, and the text from the point where reading
stopped. -/
structure expRead where
  ok : Bool
  e : Int
  underscores : Bool
  saw : Bool
  rest : List byte
  deriving DecidableEq

/-- The optional exponent of `readFloat` and `(*decimal).set`, read from the
text `t` that follows the digits; `expChar` is `e` or `p`. -/
def readExponent (expChar : Nat) (t : List byte) : expRead :=
  match t with
  | c :: t1 =>
    if lower c.val = expChar then
      match t1 with
      | [] => { ok := false, e := 0, underscores := false, saw := true, rest := t1 }
      | c1 :: t2 =>
        let esign : Int := if c1.val = 45 then -1 else 1
        let t3 := if c1.val = 43 ∨ c1.val = 45 then t2 else t1
        match t3 with
        | [] => { ok := false, e := 0, underscores := false, saw := true, rest := t3 }
        | c3 :: _ =>
          if c3.val < 48 ∨ c3.val > 57 then
            { ok := false, e := 0, underscores := false, saw := true, rest := t3 }
          else
            let (e, u, t4) := readExpLoop t3 0 false
            { ok := true, e := (e : Int) * esign, underscores := u, saw := true, rest := t4 }
    else { ok := true, e := 0, underscores := false, saw := false, rest := t }
  | [] => { ok := true, e := 0, underscores := false, saw := false, rest := [] }

/-- Function `readFloat(s)` after the optional sign: `t0` is the text that
follows the sign.  The results are the mantissa (at most 19 decimal or 16
hexadecimal digits, `trunc` when non-zero digits were dropped), the exponent,
and the length `i` read; the sign is filled in by `readFloat`. -/
def readFloatBody (s t0 : List byte) : floatRead :=
  let hex := match t0 with
    | c0 :: c1 :: _ :: _ => decide (c0.val = 48 ∧ lower c1.val = 120)
    | _ => false
  let base : Nat := if hex then 16 else 10
  let maxMantDigits : Int := if hex then 16 else 19
  let expChar : Nat := if hex then 112 else 101
  let t1 := if hex then t0.drop 2 else t0
  let (st, t2) := readFloatLoop base maxMantDigits t1
    { mantissa := 0, nd := 0, ndMant := 0, dp := 0, sawdot := false, sawdigits := false,
      trunc := false, underscores := false }
  if !st.sawdigits then
    { mantissa := st.mantissa, exp := 0, neg := false, trunc := st.trunc, hex := hex,
      i := s.length - t2.length, ok := false }
  else
    let dp := if !st.sawdot then st.nd else st.dp
    let dp := if hex then dp * 4 else dp
    let ndMant := if hex then st.ndMant * 4 else st.ndMant
    let x := readExponent expChar t2
    let i := s.length - x.rest.length
    if !x.ok ∨ (!x.saw ∧ hex) then
      { mantissa := st.mantissa, exp := 0, neg := false, trunc := st.trunc, hex := hex,
        i := i, ok := false }
    else
      let dp := dp + x.e
      let exp := if st.mantissa ≠ 0 then dp - ndMant else 0
      { mantissa := st.mantissa, exp := exp, neg := false, trunc := st.trunc, hex := hex,
        i := i,
        ok := !((st.underscores || x.underscores) && !underscoreOK (s.take i)) }

/-- Function `readFloat(s)`: an optional sign, then the digits and the
exponent. -/
def readFloat (s : List byte) : floatRead :=
  match s with
  | [] => { mantissa := 0, exp := 0, neg := false, trunc := false, hex := false, i := 0,
            ok := false }
  | c :: rest =>
    { readFloatBody s (if c.val = 43 ∨ c.val = 45 then rest else s) with
      neg := decide (c.val = 45) }

/-- Constants of `float64info`: `mantbits`, `expbits`, `bias`. -/
def mantbits : Nat := 52

/-- Constant `float64info.bias`. -/
def bias : Int := -1023

/-- The last lines of `atofHex` and `(*decimal).floatBits`: the bits of a
`float64` from its mantissa, exponent and sign. -/
def assembleBits (mant : Nat) (exp : Int) (neg : Bool) : Nat :=
  let bits := mant % 2 ^ 52
  let bits := bits ||| ((((exp - bias) % 2 ^ 11).toNat) <<< 52)
  if neg then bits ||| (1 <<< 63) else bits

/-- The first loop of `atofHex`: shift left until the mantissa has 55 bits. -/
def atofHexUp : Nat → Nat → Int → Nat × Int
  | 0, mantissa, exp => (mantissa, exp)
  | fuel + 1, mantissa, exp =>
    if mantissa ≠ 0 ∧ mantissa >>> 54 = 0 then atofHexUp fuel (mantissa <<< 1 % 2 ^ 64) (exp - 1)
    else (mantissa, exp)

/-- The second loop of `atofHex`: shift right, keeping a sticky bit, until the
mantissa has at most 55 bits. -/
def atofHexDown : Nat → Nat → Int → Nat × Int
  | 0, mantissa, exp => (mantissa, exp)
  | fuel + 1, mantissa, exp =>
    if mantissa >>> 55 ≠ 0 then atofHexDown fuel (mantissa >>> 1 ||| mantissa &&& 1) (exp + 1)
    else (mantissa, exp)

/-- The third loop of `atofHex`: denormalize while the exponent is too small. -/
def atofHexDenormal : Nat → Nat → Int → Nat × Int
  | 0, mantissa, exp => (mantissa, exp)
  | fuel + 1, mantissa, exp =>
    if mantissa > 1 ∧ exp < bias + 1 - 2 then
      atofHexDenormal fuel (mantissa >>> 1 ||| mantissa &&& 1) (exp + 1)
    else (mantissa, exp)

/-- The end of `atofHex`: infinity and a range error when the exponent is
above `maxExp`, and the bits. -/
def atofHexFinish (s : List byte) (mantissa : Nat) (exp : Int) (neg : Bool) :
    Nat × Option NumError :=
  let maxExp : Int := 2 ^ 11 + bias - 2
  if exp > maxExp then
    (assembleBits (1 <<< 52) (maxExp + 1) neg, some (rangeError "ParseFloat" s))
  else (assembleBits mantissa exp neg, none)

/-- Function `atofHex(s, &float64info, mantissa, exp, neg, trunc)`.  Each of
its three loops halves or doubles a 64-bit mantissa, so 64 rounds are enough
for each. -/
def atofHex (s : List byte) (mantissa : Nat) (exp : Int) (neg trunc : Bool) :
    Nat × Option NumError :=
  let exp := exp + 52
  let (mantissa, exp) := atofHexUp 64 mantissa exp
  let mantissa := if trunc then mantissa ||| 1 else mantissa
  let (mantissa, exp) := atofHexDown 64 mantissa exp
  let (mantissa, exp) := atofHexDenormal 64 mantissa exp
  let round := mantissa &&& 3
  let mantissa := mantissa >>> 2
  let round := round ||| (mantissa &&& 1)
  let exp := exp + 2
  let bump := decide (round = 3)
  let mantissa1 := if bump then mantissa + 1 else mantissa
  let carry := bump && decide (mantissa1 = 1 <<< 53)
  let mantissa := if carry then mantissa1 >>> 1 else mantissa1
  let exp := if carry then exp + 1 else exp
  let exp := if mantissa >>> 52 = 0 then bias else exp
  atofHexFinish s mantissa exp neg

/-- Type `decimal`: the digits `d[:nd]`, the position `dp` of the decimal
point, the sign.  The digits are kept in full; the library keeps 800 of them
and a flag `trunc` for non-zero digits beyond, which its rounding treats as a
value a little above the digits kept. -/
structure decimal where
  d : List byte
  dp : Int
  neg : Bool
  deriving DecidableEq

/-- The digit loop of `(*decimal).set`: the digits read so far (leading zeros
dropped), `dp`, `sawdot`, `sawdigits`; `none` at a second decimal point. -/
def decimalSetLoop : List byte → List byte → Int → Bool → Bool →
    Option (List byte × Int × Bool × Bool × List byte)
  | [], d, dp, sawdot, sawdigits => some (d, dp, sawdot, sawdigits, [])
  | c :: rest, d, dp, sawdot, sawdigits =>
    if c.val = 95 then decimalSetLoop rest d dp sawdot sawdigits
    else if c.val = 46 then
      if sawdot then none else decimalSetLoop rest d (d.length : Int) true sawdigits
    else if 48 ≤ c.val ∧ c.val ≤ 57 then
      if c.val = 48 ∧ d = [] then decimalSetLoop rest d (dp - 1) sawdot true
      else decimalSetLoop rest (d ++ [c]) dp sawdot true
    else some (d, dp, sawdot, sawdigits, c :: rest)

/-- Method `(*decimal).set(s)` after the optional sign: the digits and `dp`,
`none` when the text is not a decimal number. -/
def decimalSetBody (t0 : List byte) : Option (List byte × Int) :=
  match decimalSetLoop t0 [] 0 false false with
  | none => none
  | some (d, dp, sawdot, sawdigits, t1) =>
    if !sawdigits then none
    else if !(readExponent 101 t1).ok then none
    else if (readExponent 101 t1).rest ≠ [] then none
    else some (d, (if !sawdot then (d.length : Int) else dp) + (readExponent 101 t1).e)

/-- Method `(*decimal).set(s)`: `none` when `s` is not a decimal number. -/
def decimalSet (s : List byte) : Option decimal :=
  match s with
  | [] => none
  | c :: rest =>
    (decimalSetBody (if c.val = 43 ∨ c.val = 45 then rest else s)).map fun p =>
      { d := p.1, dp := p.2, neg := decide (c.val = 45) }

/-- The number of bits of `n`. -/
def bitLen : Nat → Nat → Nat
  | 0, _ => 0
  | fuel + 1, n => if n = 0 then 0 else bitLen fuel (n / 2) + 1

/-- The number the digits `d` spell. -/
def digitsNat (d : List byte) : Nat :=
  d.foldl (fun n c => 10 * n + (c.val - 48)) 0

/-- The integer nearest to `num / den`, the even one of two equally near. -/
def roundHalfEven (num den : Nat) : Nat :=
  let q := num / den
  let r := num % den
  if 2 * r > den ∨ (2 * r = den ∧ q % 2 = 1) then q + 1 else q

/-- The exponent `exp` with `2^exp ≤ num/den < 2^(exp+1)`, for positive `num`
and `den`. -/
def floorLog2 (num den : Nat) : Int :=
  let e : Int := (bitLen num num : Int) - (bitLen den den : Int)
  if e ≥ 0 then (if den * 2 ^ e.toNat ≤ num then e else e - 1)
  else (if den ≤ num * 2 ^ (-e).toNat then e else e - 1)

/-- The exit `overflow:` of `floatBits`: an infinity of the sign `neg`. -/
def floatBitsOverflow (neg : Bool) : Nat × Bool :=
  (assembleBits 0 (2 ^ 11 - 1 + bias) neg, true)

/-- The exit `out:` of `floatBits` after the test for a denormal, which has
the 53rd bit of the mantissa clear and gets the exponent `bias`. -/
def floatBitsOut (mant : Nat) (exp : Int) (neg : Bool) : Nat × Bool :=
  (assembleBits mant (if mant &&& (1 <<< 52) = 0 then bias else exp) neg, false)

/-- The step of `floatBits` after rounding: when rounding added a bit, the
mantissa is shifted down and the exponent raised, which may overflow. -/
def floatBitsCarry (mant : Nat) (exp : Int) (neg : Bool) : Nat × Bool :=
  if mant = 2 <<< 52 then
    if exp + 1 - bias ≥ 2 ^ 11 - 1 then floatBitsOverflow neg
    else floatBitsOut (mant >>> 1) (exp + 1) neg
  else floatBitsOut mant exp neg

/-- The middle of `floatBits` on the positive fraction `num/den` the decimal
denotes, with the exponent `exp` found by scaling.  The exponent overflows at
the top; else `1 + mantbits` bits are taken, rounded to the nearest integer,
the even one of two. -/
def floatBitsRound (num den : Nat) (exp : Int) (neg : Bool) : Nat × Bool :=
  if exp - bias ≥ 2 ^ 11 - 1 then floatBitsOverflow neg
  else
    floatBitsCarry
      (if exp ≤ 52 then roundHalfEven (num * 2 ^ (52 - exp).toNat) den
       else roundHalfEven num (den * 2 ^ (exp - 52).toNat))
      exp neg

/-- The exponent `floatBits` works with for the positive fraction `num/den`.
The library scales the decimal by powers of two into `[1, 2)`, which finds
`exp` with `2^exp ≤ num/den < 2^(exp+1)`, and raises an exponent below
`bias + 1` to it. -/
def floatBitsExp (num den : Nat) : Int :=
  if floorLog2 num den < bias + 1 then bias + 1 else floorLog2 num den

/-- Method `(*decimal).floatBits(&float64info)`: the bits of the `float64`
nearest to the decimal, and whether it overflows.  Zero, and the obvious
overflow and underflow by the position of the decimal point, come first.  The
library's scalings of the decimal are exact, so the same quantities are
computed here on the fraction `num/den` that the decimal denotes:
`digits * 10^e` over 1, or `digits` over `10^(-e)`, for `e = dp - nd`. -/
def floatBits (d : decimal) : Nat × Bool :=
  if d.d = [] then (assembleBits 0 bias d.neg, false)
  else if d.dp > 310 then floatBitsOverflow d.neg
  else if d.dp < -330 then (assembleBits 0 bias d.neg, false)
  else if d.dp - d.d.length ≥ 0 then
    floatBitsRound (digitsNat d.d * 10 ^ (d.dp - d.d.length).toNat) 1
      (floatBitsExp (digitsNat d.d * 10 ^ (d.dp - d.d.length).toNat) 1) d.neg
  else
    floatBitsRound (digitsNat d.d) (10 ^ (d.d.length - d.dp).toNat)
      (floatBitsExp (digitsNat d.d) (10 ^ (d.d.length - d.dp).toNat)) d.neg

/-- Function `atof64(s)`: the bits, the length read, the error.  For a decimal
text the library tries exact floating-point arithmetic and the Eisel-Lemire
algorithm before its fallback through `decimal`; all three give the nearest
`float64`, and the embedding goes through `decimal` for every decimal text. -/
def atof64 (s : List byte) : Nat × Nat × Option NumError :=
  match special s with
  | some (val, n) => (val, n, none)
  | none =>
    if !(readFloat s).ok then (0, (readFloat s).i, some (syntaxError "ParseFloat" s))
    else if (readFloat s).hex then
      ((atofHex (s.take (readFloat s).i) (readFloat s).mantissa (readFloat s).exp
          (readFloat s).neg (readFloat s).trunc).1,
        (readFloat s).i,
        (atofHex (s.take (readFloat s).i) (readFloat s).mantissa (readFloat s).exp
          (readFloat s).neg (readFloat s).trunc).2)
    else
      match decimalSet (s.take (readFloat s).i) with
      | none => (0, (readFloat s).i, some (syntaxError "ParseFloat" s))
      | some d =>
        ((floatBits d).1, (readFloat s).i,
          if (floatBits d).2 then some (rangeError "ParseFloat" s) else none)

/-- The test `err == nil || err.(*NumError).Err != ErrSyntax` of
`ParseFloat`. -/
def notSyntaxError (err : Option NumError) : Bool :=
  match err with
  | none => true
  | some e => decide (e.Err ≠ Err.ErrSyntax)

/-- Function `strconv.ParseFloat(s, 64)`: the bits of the `float64` and the
error.  A text read only in part is a syntax error, with value 0. -/
def ParseFloat (s : List byte) : Nat × Option NumError :=
  if (atof64 s).2.1 ≠ s.length ∧ notSyntaxError (atof64 s).2.2 = true then
    (0, some (syntaxError "ParseFloat" s))
  else ((atof64 s).1, (atof64 s).2.2)

/-! ### File `strconv/ftoa.go` and `strconv/decimal.go`, format `f` -/

/-- The loop of `(*decimal).Assign`: the decimal digits of `v`. -/
def assignLoop : Nat → Nat → List byte → List byte
  | 0, _, acc => acc
  | fuel + 1, v, acc =>
    if v > 0 then assignLoop fuel (v / 10) (Fin.ofNat (v % 10 + 48) :: acc) else acc

/-- Function `trim(a)`: trailing zeros are dropped; with no digit left `dp`
is 0. -/
def trim (a : decimal) : decimal :=
  let d := (a.d.reverse.dropWhile fun c => c.val = 48).reverse
  { a with d := d, dp := if d = [] then 0 else a.dp }

/-- Methods `(*decimal).Assign(mant)` then `(*decimal).Shift(k)`: the decimal
of `mant * 2^k`.  The shift is exact in the library (its 800 digits hold any
`float64`); here the product is formed and its digits taken, with `mant * 5^n`
over `10^n` for `k = -n`. -/
def assignShift (mant : Nat) (k : Int) (neg : Bool) : decimal :=
  let v := if k ≥ 0 then mant * 2 ^ k.toNat else mant * 5 ^ (-k).toNat
  let d := assignLoop v v []
  let dp : Int := if k ≥ 0 then d.length else (d.length : Int) - (-k)
  trim { d := d, dp := dp, neg := neg }

/-- Function `shouldRoundUp(a, nd)`. -/
def shouldRoundUp (a : decimal) (nd : Int) : Bool :=
  if nd < 0 ∨ nd ≥ a.d.length then false
  else
    let c := (a.d.getD nd.toNat 0).val
    if c = 53 ∧ nd + 1 = a.d.length then
      decide (nd > 0) && decide (((a.d.getD (nd.toNat - 1) 0).val - 48) % 2 ≠ 0)
    else decide (c ≥ 53)

/-- Method `(*decimal).RoundDown(nd)`. -/
def RoundDown (a : decimal) (nd : Int) : decimal :=
  if nd < 0 ∨ nd ≥ a.d.length then a
  else trim { a with d := a.d.take nd.toNat }

/-- The loop of `(*decimal).RoundUp` over the kept digits, last first: `none`
when all are 9. -/
def roundUpLoop : List byte → Option (List byte)
  | [] => none
  | c :: before =>
    if c.val < 57 then some ((Fin.ofNat (c.val + 1) : byte) :: before)
    else roundUpLoop before

/-- Method `(*decimal).RoundUp(nd)`. -/
def RoundUp (a : decimal) (nd : Int) : decimal :=
  if nd < 0 ∨ nd ≥ a.d.length then a
  else
    match roundUpLoop (a.d.take nd.toNat).reverse with
    | some r => { a with d := r.reverse }
    | none => { a with d := [(49 : byte)], dp := a.dp + 1 }

/-- Method `(*decimal).Round(nd)`. -/
def Round (a : decimal) (nd : Int) : decimal :=
  if nd < 0 ∨ nd ≥ a.d.length then a
  else if shouldRoundUp a nd then RoundUp a nd else RoundDown a nd

/-- The fraction loop of `fmtF`: digit `dp + i` of the decimal, or `0`. -/
def fmtFFraction (d : decimal) (prec : Nat) : Nat → List byte
  | 0 => []
  | k + 1 =>
    let i : Int := (prec : Int) - (k + 1)
    let j := d.dp + i
    (if 0 ≤ j ∧ j < d.d.length then d.d.getD j.toNat 48 else (48 : byte)) ::
      fmtFFraction d prec k

/-- Function `fmtF(dst, neg, d, prec)`: the bytes appended. -/
def fmtF (neg : Bool) (d : decimal) (prec : Nat) : List byte :=
  let sign : List byte := if neg then [(45 : byte)] else []
  let integer : List byte :=
    if d.dp > 0 then
      let m := min d.d.length d.dp.toNat
      d.d.take m ++ List.replicate (d.dp.toNat - m) (48 : byte)
    else [(48 : byte)]
  let fraction : List byte :=
    if prec > 0 then (46 : byte) :: fmtFFraction d prec prec else []
  sign ++ integer ++ fraction

/-- Function `bigFtoa(dst, prec, fmt, neg, mant, exp, flt)` for the format
`f` and a precision `prec ≥ 0`. -/
def bigFtoa (prec : Nat) (neg : Bool) (mant : Nat) (exp : Int) : List byte :=
  let d := assignShift mant (exp - 52) neg
  let d := Round d (d.dp + prec)
  fmtF neg d prec

/-- Function `genericFtoa(dst, val, fmt, prec, 64)` for the format `f` and a
precision `prec ≥ 0`, on the bits of `val`: with a fixed precision the format
`f` goes through `bigFtoa`. -/
def genericFtoa (bits : Nat) (prec : Nat) : List byte :=
  let neg := decide (bits >>> 63 ≠ 0)
  let exp : Nat := (bits >>> 52) % 2 ^ 11
  let mant : Nat := bits % 2 ^ 52
  if exp = 2 ^ 11 - 1 then
    if mant ≠ 0 then str "NaN" else if neg then str "-Inf" else str "+Inf"
  else
    let exp1 : Int := if exp = 0 then 1 else (exp : Int)
    let mant := if exp = 0 then mant else mant ||| (1 <<< 52)
    bigFtoa prec neg mant (exp1 + bias)

/-- Function `strconv.AppendFloat(dst, f, fmt, prec, 64)` for the format `f`:
the bytes appended. -/
def AppendFloat (bits : Nat) (prec : Nat) : List byte := genericFtoa bits prec

end strconv

/-! ## Package fmt: printing

Files `fmt/print.go` (`Sprintf`, `Sprint`, `Sprintln`, `doPrintf`,
`printArg`, `badVerb`) and `fmt/format.go` (`fmtInteger`), for directives
without flags, width, precision or argument index. -/

namespace fmt

/-- An operand of a print call (`any`): a value together with its dynamic
type, for the integer, string and `float64` types the programs print; a
`float64` is held as its bits. -/
inductive Value where
  | int (v : Int)
  | int8 (v : Int)
  | int32 (v : Int)
  | int64 (v : Int)
  | uint (v : Int)
  | string (s : List byte)
  | float64 (bits : Nat)
  deriving DecidableEq

/-- The text `reflect.TypeOf(arg).String()`. -/
def Value.typeString : Value → List byte
  | .int _ => str "int"
  | .int8 _ => str "int8"
  | .int32 _ => str "int32"
  | .int64 _ => str "int64"
  | .uint _ => str "uint"
  | .string _ => str "string"
  | .float64 _ => str "float64"

/-- Constant `ldigits`. -/
def ldigits : List byte := str "0123456789abcdefx"

/-- The loop `for u >= 10` of `(*fmt).fmtInteger` at base 10.  `i` is the
index into the 68-byte `intbuf`, `buf` the filled tail `buf[i:]`; the result
is `none` when the index would leave the array. -/
def fmtIntegerLoop : Nat → Nat → List byte → Option (Nat × Nat × List byte)
  | 0, u, buf => if u ≥ 10 then none else some (0, u, buf)
  | i + 1, u, buf =>
    if u ≥ 10 then
      let next := u / 10
      fmtIntegerLoop i next (Fin.ofNat ((48 + u - next * 10) % 256) :: buf)
    else some (i + 1, u, buf)

/-- Method `(*fmt).fmtInteger(u, 10, isSigned, verb, ldigits)` with no flag,
width or precision set: the bytes `buf[i:]` handed to `f.pad`, which then
writes them unchanged. -/
def fmtInteger (u : Nat) (isSigned : Bool) : Option (List byte) :=
  let negative := isSigned && decide (2 ^ 63 ≤ u)
  let u := if negative then (2 ^ 64 - u) % 2 ^ 64 else u
  match fmtIntegerLoop 68 u [] with
  | none => none
  | some (i, u, buf) =>
    if i < 1 then none
    else
      let i := i - 1
      let buf := ldigits.getD u 0 :: buf
      if negative then (if i < 1 then none else some ((45 : byte) :: buf)) else some buf

/-- The result of printing one operand under verb `v`, the verb under which
`badVerb` and the `%!(EXTRA ...)` report print: `printArg(arg, 'v')`.  For a
`float64` the verb `v` asks for the shortest text that reads back, which is
outside the embedding. -/
def printValue : Value → Option (List byte)
  | .int v | .int8 v | .int32 v | .int64 v => fmtInteger (uint64 v).toNat true
  | .uint v => fmtInteger (uint64 v).toNat false
  | .string s => some s
  | .float64 _ => none

/-- Method `(*fmt).fmtFloat(v, 64, verb, prec)` for the verb `f` with no flag
set: `AppendFloat` writes after one reserved byte; a missing sign is put
there; infinities and NaN are written apart; a positive number is written
without its sign. -/
def fmtFloat (bits : Nat) (prec : Nat) : List byte :=
  let tail := strconv.AppendFloat bits prec
  let num : List byte :=
    match tail with
    | c :: _ => if c.val = 45 ∨ c.val = 43 then tail else (43 : byte) :: tail
    | [] => (43 : byte) :: tail
  let c1 := (num.getD 1 0).val
  if c1 = 73 ∨ c1 = 78 then
    if c1 = 78 then num.drop 1 else num
  else if (num.getD 0 0).val ≠ 43 then num
  else num.drop 1

/-- Method `(*pp).badVerb(verb)` for a non-nil operand. -/
def badVerb (verb : byte) (arg : Value) : Option (List byte) :=
  (printValue arg).map fun t =>
    str "%!" ++ [verb] ++ str "(" ++ arg.typeString ++ str "=" ++ t ++ str ")"

/-- Method `(*pp).fmtInteger(v, isSigned, verb)`; the verbs `b o O x X c q U`
are outside the embedding. -/
def ppFmtInteger (u : Nat) (isSigned : Bool) (verb : byte) (arg : Value) : Option (List byte) :=
  if verb.val = 118 ∨ verb.val = 100 then fmtInteger u isSigned
  else if verb.val ∈ [98, 111, 79, 120, 88, 99, 113, 85] then none
  else badVerb verb arg

/-- Method `(*pp).fmtString(v, verb)`; the verbs `x X q` are outside the
embedding. -/
def ppFmtString (v : List byte) (verb : byte) (arg : Value) : Option (List byte) :=
  if verb.val = 118 ∨ verb.val = 115 then some v
  else if verb.val ∈ [120, 88, 113] then none
  else badVerb verb arg

/-- Method `(*pp).fmtFloat(v, 64, verb)`: the verb `f` prints with precision
6; the other floating-point verbs `v b g G x X e E F` are outside the
embedding. -/
def ppFmtFloat (bits : Nat) (verb : byte) (arg : Value) : Option (List byte) :=
  if verb.val = 102 then some (fmtFloat bits 6)
  else if verb.val ∈ [118, 98, 103, 71, 120, 88, 101, 69, 70] then none
  else badVerb verb arg

/-- Method `(*pp).printArg(arg, verb)` for a non-nil operand: the bytes added
to the output buffer, `none` for a verb outside the embedding. -/
def printArg (arg : Value) (verb : byte) : Option (List byte) :=
  if verb.val = 84 then some arg.typeString
  else if verb.val = 112 then none
  else
    match arg with
    | .int v | .int8 v | .int32 v | .int64 v => ppFmtInteger (uint64 v).toNat true verb arg
    | .uint v => ppFmtInteger (uint64 v).toNat false verb arg
    | .string s => ppFmtString s verb arg
    | .float64 bits => ppFmtFloat bits verb arg

/-- The bytes after which a `%` starts a directive the embedding does not
cover: the flags `# 0 + - space`, an argument index `[`, a width or precision
`* . 1..9`, and a verb outside ASCII. -/
def complexDirective (c : byte) : Bool :=
  c.val ∈ [35, 48, 43, 45, 32, 91, 42, 46] || (49 ≤ c.val && c.val ≤ 57) || 128 ≤ c.val

/-- The `formatLoop` of `(*pp).doPrintf(format, a)`: the buffer and the
number of operands used when the format is exhausted. -/
def doPrintfLoop (a : List Value) : List byte → Nat → List byte → Option (List byte × Nat)
  | [], argNum, buf => some (buf, argNum)
  | c :: rest, argNum, buf =>
    if c.val ≠ 37 then doPrintfLoop a rest argNum (buf ++ [c])
    else
      match rest with
      | [] => some (buf ++ str "%!(NOVERB)", argNum)
      | verb :: rest =>
        if complexDirective verb then none
        else if verb.val = 37 then doPrintfLoop a rest argNum (buf ++ [verb])
        else
          match a.get? argNum with
          | none => doPrintfLoop a rest argNum (buf ++ str "%!" ++ [verb] ++ str "(MISSING)")
          | some arg =>
            if verb.val = 119 then none
            else
              match printArg arg verb with
              | none => none
              | some t => doPrintfLoop a rest (argNum + 1) (buf ++ t)

/-- The text `type=value` of one unused operand in the `%!(EXTRA ...)` report. -/
def extraArg (arg : Value) : Option (List byte) :=
  (printValue arg).map fun t => arg.typeString ++ str "=" ++ t

/-- The unused operands `a[argNum:]` of the `%!(EXTRA ...)` report, separated
by `", "`. -/
def extraArgs : List Value → Bool → Option (List byte)
  | [], _ => some []
  | arg :: rest, first =>
    match extraArg arg, extraArgs rest false with
    | some t, some ts => some ((if first then [] else str ", ") ++ t ++ ts)
    | _, _ => none

/-- Method `(*pp).doPrintf(format, a)`: the final buffer. -/
def doPrintf (format : List byte) (a : List Value) : Option (List byte) :=
  match doPrintfLoop a format 0 [] with
  | none => none
  | some (buf, argNum) =>
    if argNum < a.length then
      (extraArgs (a.drop argNum) true).map fun t => buf ++ str "%!(EXTRA " ++ t ++ str ")"
    else some buf

/-- Function `fmt.Sprintf(format, a...)`. -/
def Sprintf (format : List byte) (a : List Value) : Option (List byte) :=
  doPrintf format a

/-- Whether `reflect.TypeOf(arg).Kind() == reflect.String`. -/
def Value.isString : Value → Bool
  | .string _ => true
  | _ => false

/-- The loop of `(*pp).doPrint(a)`: a space goes between two operands when
neither is a string. -/
def doPrintLoop : List Value → Nat → Bool → List byte → Option (List byte)
  | [], _, _, buf => some buf
  | arg :: rest, argNum, prevString, buf =>
    let isString := arg.isString
    let buf := if argNum > 0 ∧ !isString ∧ !prevString then buf ++ [(32 : byte)] else buf
    match printArg arg 118 with
    | none => none
    | some t => doPrintLoop rest (argNum + 1) isString (buf ++ t)

/-- Function `fmt.Sprint(a...)`, the text `fmt.Print(a...)` writes. -/
def Sprint (a : List Value) : Option (List byte) :=
  doPrintLoop a 0 false []

/-- The loop of `(*pp).doPrintln(a)`. -/
def doPrintlnLoop : List Value → Nat → List byte → Option (List byte)
  | [], _, buf => some buf
  | arg :: rest, argNum, buf =>
    match printArg arg 118 with
    | none => none
    | some t => doPrintlnLoop rest (argNum + 1) ((if argNum > 0 then buf ++ [(32 : byte)] else buf) ++ t)

/-- Function `fmt.Sprintln(a...)`, the text `fmt.Println(a...)` writes. -/
def Sprintln (a : List Value) : Option (List byte) :=
  (doPrintlnLoop a 0 []).map fun buf => buf ++ [(10 : byte)]


/-! ## Package fmt: scanning

File `fmt/scan.go`.  `fmt.Scan`, `fmt.Scanln` and `fmt.Scanf` read `os.Stdin`,
which has no `UnreadRune`: each call wraps it in a fresh `readRune`, reads it
one byte at a time, and keeps one rune of lookahead in that wrapper. -/

/-- The errors a scan call returns: `io.EOF`, `io.ErrUnexpectedEOF`, an error
made by `errorString` with its message, an error of `strconv`; and two
outcomes of the embedding itself: `unsupported` for input or verbs outside
the embedded fragment, `outOfFuel` for a loop cut short. -/
inductive ScanError where
  | EOF
  | ErrUnexpectedEOF
  | errorString (msg : List byte)
  | numError (e : strconv.NumError)
  | unsupported
  | outOfFuel
  deriving DecidableEq

/-- Type `readRune`, the wrapper `newScanState` puts around a reader that has
no `UnreadRune`, such as `os.Stdin`.  `reader` is the input not yet read from
the underlying stream; `peekRune` is the next rune when `≥ 0` and the
complement of the previous rune when `< 0`. -/
structure readRune where
  reader : List byte
  peekRune : Int
  deriving DecidableEq

/-- Type `ss`, the scan state. -/
structure ss where
  rs : readRune
  buf : List byte
  count : Nat
  atEOF : Bool
  nlIsEnd : Bool
  nlIsSpace : Bool
  argLimit : Nat
  limit : Nat
  maxWid : Nat
  deriving DecidableEq

/-- A scanning step: it may stop with an error (Go: `panic(scanError)`), and
always leaves a scan state. -/
abbrev ScanM (α : Type) := ExceptT ScanError (StateM ss) α

/-- Constant `hugeWid`, `1 << 30`. -/
def hugeWid : Nat := 2 ^ 30

/-- Method `(*readRune).ReadRune`: `none` at end of input.  A pending rune is
handed out first; otherwise one byte is read from the stream.  Only the
one-byte (ASCII) case of the decoding is embedded: a byte of `0x80` or more
gives `unsupported`. -/
def readRune.ReadRune (r : readRune) : Except ScanError (Option Nat) × readRune :=
  if 0 ≤ r.peekRune then
    (.ok (some r.peekRune.toNat), { r with peekRune := -r.peekRune - 1 })
  else
    match r.reader with
    | [] => (.ok none, r)
    | b :: rest =>
      if b.val < 128 then (.ok (some b.val), { reader := rest, peekRune := -(b.val : Int) - 1 })
      else (.error .unsupported, { r with reader := rest })

/-- Method `(*readRune).UnreadRune`; its error result is dropped by the
caller. -/
def readRune.UnreadRune (r : readRune) : readRune :=
  if 0 ≤ r.peekRune then r else { r with peekRune := -r.peekRune - 1 }

/-- Method `(*ss).ReadRune`: `none` for the result `io.EOF`. -/
def ReadRune : ScanM (Option Nat) := do
  let s ← get
  if s.atEOF ∨ s.count ≥ s.argLimit then return none
  let (res, rs) := s.rs.ReadRune
  match res with
  | .error e => set { s with rs := rs }; throw e
  | .ok none => set { s with rs := rs, atEOF := true }; return none
  | .ok (some r) =>
    set { s with rs := rs, count := s.count + 1,
                 atEOF := if s.nlIsEnd ∧ r = 10 then true else s.atEOF }
    return some r

/-- Method `(*ss).getRune`: `none` for the result `eof`. -/
def getRune : ScanM (Option Nat) := ReadRune

/-- Method `(*ss).UnreadRune`. -/
def UnreadRune : ScanM Unit :=
  modify fun s => { s with rs := s.rs.UnreadRune, atEOF := false, count := s.count - 1 }

/-- Function `isSpace(r)` on the ASCII runes. -/
def isSpace (r : Nat) : Bool := (9 ≤ r && r ≤ 13) || r == 32

/-- Function `notSpace(r)`. -/
def notSpace (r : Nat) : Bool := !isSpace r

/-- Method `(*ss).peek(ok)`. -/
def peek (ok : List Nat) : ScanM Bool := do
  let r ← getRune
  if r.isSome then UnreadRune
  return match r with
    | some r => r ∈ ok
    | none => false

/-- The loop of `(*ss).SkipSpace`. -/
def SkipSpaceLoop : Nat → ScanM Unit
  | 0 => throw .outOfFuel
  | fuel + 1 => do
    match ← getRune with
    | none => return
    | some r =>
      let crlf ← if r = 13 then peek [10] else pure false
      if crlf then SkipSpaceLoop fuel
      else if r = 10 then
        if (← get).nlIsSpace then SkipSpaceLoop fuel
        else throw (.errorString (str "unexpected newline"))
      else if !isSpace r then UnreadRune
      else SkipSpaceLoop fuel

/-- A bound on the rounds of a scanning loop: every round reads a rune, which
is the pending rune or a byte of the unread input. -/
def rounds : ScanM Nat := do
  return (← get).rs.reader.length + 2

/-- Method `(*ss).SkipSpace`. -/
def SkipSpace : ScanM Unit := do SkipSpaceLoop (← rounds)

/-- Method `(*ss).notEOF`. -/
def notEOF : ScanM Unit := do
  match ← getRune with
  | none => throw .EOF
  | some _ => UnreadRune

/-- The loop of `(*ss).token(skipSpace, f)`. -/
def tokenLoop (f : Nat → Bool) : Nat → ScanM Unit
  | 0 => throw .outOfFuel
  | fuel + 1 => do
    match ← getRune with
    | none => return
    | some r =>
      if !f r then UnreadRune
      else
        modify fun s => { s with buf := s.buf ++ [Fin.ofNat r] }
        tokenLoop f fuel

/-- Method `(*ss).token(skipSpace, f)`. -/
def token (skipSpace : Bool) (f : Nat → Bool) : ScanM (List byte) := do
  if skipSpace then SkipSpace
  tokenLoop f (← rounds)
  return (← get).buf

/-- The message of `(*ss).okVerb`: `bad verb '%` verb `' for ` typ. -/
def badVerbMessage (verb : Nat) (typ : List byte) : List byte :=
  str "bad verb " ++ [(39 : byte), (37 : byte), Fin.ofNat verb, (39 : byte)] ++ str " for " ++ typ

/-- Method `(*ss).convertString(verb)` for the verbs `s` and `v`; the verbs
`q`, `x`, `X` are outside the embedding. -/
def convertString (verb : Nat) : ScanM (List byte) := do
  if verb ∉ [115, 118, 113, 120, 88] then
    throw (.errorString (badVerbMessage verb (str "string")))
  SkipSpace
  notEOF
  if verb ∈ [113, 120, 88] then throw .unsupported
  token true notSpace

/-- Method `(*ss).consume(ok, accept)`. -/
def consume (ok : List Nat) (accept : Bool) : ScanM Bool := do
  match ← getRune with
  | none => return false
  | some r =>
    if r ∈ ok then
      if accept then modify fun s => { s with buf := s.buf ++ [Fin.ofNat r] }
      return true
    if accept then UnreadRune
    return false

/-- Method `(*ss).accept(ok)`. -/
def accept (ok : List Nat) : ScanM Bool := consume ok true

/-- Constant `decimalDigits`. -/
def decimalDigits : List Nat := [48, 49, 50, 51, 52, 53, 54, 55, 56, 57]

/-- Constant `sign`. -/
def sign : List Nat := [43, 45]

/-- The loop `for s.accept(digits) {}` of `(*ss).scanNumber`. -/
def scanNumberLoop (digits : List Nat) : Nat → ScanM Unit
  | 0 => throw .outOfFuel
  | fuel + 1 => do
    if ← accept digits then scanNumberLoop digits fuel

/-- Method `(*ss).scanNumber(digits, haveDigits)`. -/
def scanNumber (digits : List Nat) (haveDigits : Bool) : ScanM (List byte) := do
  if !haveDigits then
    notEOF
    if !(← accept digits) then throw (.errorString (str "expected integer"))
  scanNumberLoop digits (← rounds)
  return (← get).buf


/-- A scan target: the pointer types `*string` and `*int` the program passes. -/
inductive Target where
  | string
  | int
  deriving DecidableEq

/-- What a scan stores through a target pointer. -/
inductive Stored where
  | string (s : List byte)
  | int (n : Int)
  deriving DecidableEq

/-- Method `(*ss).scanInt(verb, 64)` for the verb `d`: base 10, digits
`decimalDigits`, the token converted by `strconv.ParseInt(tok, 10, 64)`.  At
the bit size 64 the shifts of the closing overflow check are by 0, so that
check never fails.  The other integer verbs are outside the embedding. -/
def scanInt (verb : Nat) : ScanM Int := do
  if verb = 99 then throw .unsupported
  SkipSpace
  notEOF
  if verb ∉ [98, 100, 111, 85, 120, 88, 118] then
    throw (.errorString (badVerbMessage verb (str "integer")))
  if verb ≠ 100 then throw .unsupported
  let _ ← accept sign
  let tok ← scanNumber decimalDigits false
  let (i, err) := strconv.ParseInt tok 64
  match err with
  | some e => throw (.numError e)
  | none => return i

/-- Method `(*ss).scanOne(verb, arg)` for the targets `*string` and `*int`:
the value stored through `arg`. -/
def scanOne (verb : Nat) (arg : Target) : ScanM Stored := do
  modify fun s => { s with buf := [] }
  match arg with
  | .int => return .int (int (← scanInt verb))
  | .string => return .string (← convertString verb)

/-- The loop `for _, v := range a` of `(*ss).doScan`: the values stored so
far, and the error that stopped the loop if one did. -/
def doScanArgs :
    List Target → List Stored → ss → List Stored × Option ScanError × ss
  | [], done, s => (done, none, s)
  | v :: rest, done, s =>
    match (scanOne 118 v).run s with
    | (.ok x, s) => doScanArgs rest (done ++ [x]) s
    | (.error e, s) => (done, some e, s)

/-- The loop of `(*ss).doScan` that looks for the newline when `nlIsEnd`. -/
def doScanNewline : Nat → ScanM Unit
  | 0 => throw .outOfFuel
  | fuel + 1 => do
    match ← getRune with
    | none => return
    | some r =>
      if r = 10 then return
      if !isSpace r then throw (.errorString (str "expected newline"))
      doScanNewline fuel

/-- Method `(*ss).doScan(a)`: the stored values, their number, the error. -/
def doScan (a : List Target) (s : ss) : List Stored × Option ScanError × ss :=
  match doScanArgs a [] s with
  | (done, some e, s) => (done, some e, s)
  | (done, none, s) =>
    if s.nlIsEnd then
      match (do doScanNewline (← rounds) : ScanM Unit).run s with
      | (.ok _, s) => (done, none, s)
      | (.error e, s) => (done, some e, s)
    else (done, none, s)

/-- Method `(*ss).doScanf(format, a)` for a format made of directives `%verb`
with no width, such as the program's `"%d"`: `advance` returns 0 at each `%`
that starts a directive.  Literal text, spaces, `%%` and widths in the format
are outside the embedding. -/
def doScanf :
    List byte → List Target → List Stored → ss → List Stored × Option ScanError × ss
  | [], a, done, s =>
    if ¬ a.isEmpty then (done, some (.errorString (str "too many operands")), s)
    else (done, none, s)
  | c :: format, a, done, s =>
    if c.val ≠ 37 then (done, some .unsupported, s)
    else
      match format with
      | [] =>
        (done, some (.errorString (str "missing verb: % at end of format string")), s)
      | verb :: format =>
        if verb.val = 37 ∨ (48 ≤ verb.val ∧ verb.val ≤ 57) ∨ 128 ≤ verb.val then
          (done, some .unsupported, s)
        else
          let s := { s with maxWid := hugeWid }
          match (if verb.val ≠ 99 then SkipSpace else pure () : ScanM Unit).run s with
          | (.error e, s) => (done, some e, s)
          | (.ok _, s) =>
            let s := { s with argLimit := min s.limit (s.count + s.maxWid) }
            match a with
            | [] =>
              (done, some (.errorString (str "too few operands for format " ++
                [(39 : byte), (37 : byte)] ++ verb :: format ++ [(39 : byte)])), s)
            | arg :: a =>
              match (scanOne verb.val arg).run s with
              | (.error e, s) => (done, some e, s)
              | (.ok x, s) => doScanf format a (done ++ [x]) { s with argLimit := s.limit }

/-- Function `newScanState(r, nlIsSpace, nlIsEnd)` for a reader without
`UnreadRune`. -/
def newScanState (r : List byte) (nlIsSpace nlIsEnd : Bool) : ss :=
  { rs := { reader := r, peekRune := -1 }, buf := [], count := 0, atEOF := false,
    nlIsEnd := nlIsEnd, nlIsSpace := nlIsSpace,
    argLimit := hugeWid, limit := hugeWid, maxWid := hugeWid }

/-- The outcome of one scan call on `os.Stdin`: the values stored through
the targets, the results `n` and `err`, and the input left unread on the
stream. -/
structure ScanResult where
  stored : List Stored
  n : Nat
  err : Option ScanError
  stdin : List byte
  deriving DecidableEq

/-- Method `(*ss).free`: the scan state goes back to the pool with `rs` set
to nil, so the `readRune` wrapper is dropped together with a rune it holds in
`peekRune`.  What the next call finds on `os.Stdin` is the input the wrapper
has not read. -/
def free (s : ss) : List byte := s.rs.reader

/-- The results of a scan call once its state is freed. -/
def ScanResult.ofState : List Stored × Option ScanError × ss → ScanResult
  | (done, err, s) => { stored := done, n := done.length, err := err, stdin := free s }

/-- Function `fmt.Scan(a...)`: `Fscan(os.Stdin, a...)`. -/
def Scan (stdin : List byte) (a : List Target) : ScanResult :=
  .ofState (doScan a (newScanState stdin true false))

/-- Function `fmt.Scanln(a...)`: `Fscanln(os.Stdin, a...)`. -/
def Scanln (stdin : List byte) (a : List Target) : ScanResult :=
  .ofState (doScan a (newScanState stdin false true))

/-- Function `fmt.Scanf(format, a...)`: `Fscanf(os.Stdin, format, a...)`. -/
def Scanf (stdin : List byte) (format : List byte) (a : List Target) : ScanResult :=
  .ofState (doScanf format a [] (newScanState stdin false false))

end fmt

/-! ## The program of unit 1 (`unit-1-fmt/main.go`) -/

namespace unit1

/-- Concatenation of the pieces written to standard output; `none` as soon
as one piece is outside the embedding. -/
def output : List (Option (List byte)) → Option (List byte)
  | [] => some []
  | none :: _ => none
  | some t :: rest => (output rest).map fun ts => t ++ ts

/-- What a run of `main` leaves: the three variables, the results of the
three scan calls (whose `err` the program discards), the text written to
standard output and the input left unread. -/
structure Run where
  firstName : List byte
  lastName : List byte
  age : Int
  scan1 : fmt.ScanResult
  scan2 : fmt.ScanResult
  scan3 : fmt.ScanResult
  stdout : Option (List byte)
  stdin : List byte
  deriving DecidableEq

/-- Function `main` of unit 1 run on the standard input `stdin`. -/
def main (stdin : List byte) : Run :=
  let out1 := fmt.Sprint [.string (str "This is fmt.Print (no newline) | ")]
  let out2 := fmt.Sprintln [.string (str "This is fmt.Println (with newline)")]
  let out3 := fmt.Sprintf (str "This is fmt.Printf with formatting: %d + %d = %d\n")
    [.int 2, .int 3, .int (2 + 3)]
  let name := str "Paul"
  let message := fmt.Sprintf (str "hello, %s! Welcome to Go.") [.string name]
  let out4 := message.bind fun m => fmt.Sprintln [.string m]
  let firstName : List byte := []
  let lastName : List byte := []
  let age : Int := 0
  let out5 := fmt.Sprint [.string (str "Enter your first name: ")]
  let scan1 := fmt.Scan stdin [.string]
  let firstName := match scan1.stored with
    | [.string v] => v
    | _ => firstName
  let out6 := fmt.Sprint [.string (str "Enter your last name: ")]
  let scan2 := fmt.Scanln scan1.stdin [.string]
  let lastName := match scan2.stored with
    | [.string v] => v
    | _ => lastName
  let out7 := fmt.Sprint [.string (str "Enter your age: ")]
  let scan3 := fmt.Scanf scan2.stdin (str "%d") [.int]
  let age := match scan3.stored with
    | [.int v] => v
    | _ => age
  let out8 := fmt.Sprintf (str "Hi %s %s, you are %d years old!\n")
    [.string firstName, .string lastName, .int age]
  { firstName := firstName, lastName := lastName, age := age,
    scan1 := scan1, scan2 := scan2, scan3 := scan3,
    stdout := output [out1, out2, out3, out4, out5, out6, out7, out8],
    stdin := scan3.stdin }

end unit1

/-! ## Statements of unit 2 (`unit-2-type-convertion/main.go`) -/

namespace unit2

/-- Statement `var i int = 32`. -/
def i : Int := 32

/-- Statement `var i8 int8 = int8(i)`. -/
def i8 : Int := int8 i

/-- Statement `var i32 int32 = int32(i)`. -/
def i32 : Int := int32 i

/-- Statement `var i64 int64 = int64(i)`. -/
def i64 : Int := int64 i

/-- The text written by `fmt.Println(i,i8,i32,i64)`. -/
def printlnValues : Option (List byte) :=
  fmt.Sprintln [.int i, .int8 i8, .int32 i32, .int64 i64]

/-- The text written by
`fmt.Printf("Type of i: %T , i8: %T, i32: %T, i64: %T\n",i,i8,i32,i64)`. -/
def printfTypes : Option (List byte) :=
  fmt.Sprintf (str "Type of i: %T , i8: %T, i32: %T, i64: %T\n")
    [.int i, .int8 i8, .int32 i32, .int64 i64]

/-- Statement `strInt := strconv.Itoa(i)`. -/
def strInt : Option (List byte) := strconv.Itoa i

/-- Statement `var signed int = -42`. -/
def signed : Int := -42

/-- Statement `var unsigned uint = uint(signed)`. -/
def unsigned : Int := uint signed

/-- The text written by `fmt.Println("Type unsigned: ", unsigned)`. -/
def printlnUnsigned : Option (List byte) :=
  fmt.Sprintln [.string (str "Type unsigned: "), .uint unsigned]

/-- Statement `num, err := strconv.Atoi(str)` with `str := "32"`. -/
def numErr : Int × Option strconv.NumError := strconv.Atoi (str "32")

/-- Statement `newf64, err := strconv.ParseFloat(str2,64)` with
`str2 := "3.14159"`. -/
def newf64Err : Nat × Option strconv.NumError := strconv.ParseFloat (str "3.14159")

/-- The text written by the `if err != nil` statement that follows:
`fmt.Printf("Error %v\n", err)` is outside the embedding, and with no error
`fmt.Printf("newf64 value is %f with type %T\n",newf64,newf64)`. -/
def printfNewf64 : Option (List byte) :=
  match newf64Err with
  | (_, some _) => none
  | (newf64, none) =>
    fmt.Sprintf (str "newf64 value is %f with type %T\n") [.float64 newf64, .float64 newf64]

end unit2

end Go

/-! ## Canonical decimal text (the specification's glossary) -/

namespace Spec

open Go

/-- A decimal digit `0`..`9`. -/
def isDigit (c : byte) : Bool := decide (48 ≤ c.val) && decide (c.val ≤ 57)

/-- The number a digit string denotes in base 10. -/
def digitsValue (ds : List byte) : Nat :=
  ds.foldl (fun n c => 10 * n + (c.val - 48)) 0

/-- The minimal base-10 text of a natural number: digits only, at least one,
and no leading zero unless the text is the literal `0`. -/
def isCanonicalNat (ds : List byte) : Bool :=
  match ds with
  | [] => false
  | c :: rest => (c :: rest).all isDigit && (decide (c.val ≠ 48) || rest.isEmpty)

/-- Canonical decimal text: the minimal base-10 text of an integer, with no
leading zeros except the literal `0`, and an optional leading `-`.  The text
`-0` is not minimal (it denotes the same integer as `0`) and is excluded. -/
def isCanonicalDecimal (s : List byte) : Bool :=
  match s with
  | [] => false
  | c :: rest =>
    if c.val = 45 then isCanonicalNat rest && decide (rest ≠ [(48 : byte)])
    else isCanonicalNat s

/-- The text without one leading sign `-` or `+`. -/
def dropSign (s : List byte) : List byte :=
  match s with
  | [] => []
  | c :: rest => if c.val = 45 ∨ c.val = 43 then rest else s

/-- Whether the text starts with `-`. -/
def isNegative (s : List byte) : Bool :=
  match s with
  | [] => false
  | c :: _ => decide (c.val = 45)

/-- The integer a decimal text denotes: an optional sign, then digits. -/
def decimalValue (s : List byte) : Int :=
  if isNegative s then -(digitsValue (dropSign s) : Int) else (digitsValue (dropSign s) : Int)

/-- The texts `strconv.Atoi` takes for decimal integers: an optional sign
`-` or `+`, then one digit or more. -/
def isDecimalSyntax (s : List byte) : Bool :=
  !(dropSign s).isEmpty && (dropSign s).all isDigit

/-- The text without a leading `-`, the one sign the glossary's decimal text
may carry. -/
def dropMinus (s : List byte) : List byte :=
  match s with
  | [] => []
  | c :: rest => if c.val = 45 then rest else s

/-- The text contains a non-numeric character: a byte that is not a decimal
digit, a leading `-` apart. -/
def hasNonNumeric (s : List byte) : Bool :=
  (dropMinus s).any fun c => !isDigit c

/-- The decimal digits of a natural number, most significant first. -/
def natText (u : Nat) : List byte :=
  if u < 10 then [Fin.ofNat (48 + u)]
  else natText (u / 10) ++ [Fin.ofNat (48 + u % 10)]
termination_by u
decreasing_by omega

/-- The canonical decimal text of an integer. -/
def canonicalText (v : Int) : List byte :=
  if v < 0 then (45 : byte) :: natText v.natAbs else natText v.natAbs

end Spec

/-! ## Theorems: integer conversions -/

/-- C1: for every signed 64-bit integer `v`, the conversion `uint(v)` equals
`v + 2^64` when `v < 0` and `v` when `v ≥ 0`; for `v = -42` this is
`18446744073709551574`, the number recorded in the source. -/
theorem uint_of_int64 (v : Int) (hlo : Go.minInt ≤ v) (hhi : v ≤ Go.maxInt) :
    Go.ToFixedWidth v 64 false = Go.uint v ∧
    (v < 0 → Go.uint v = v + 2 ^ 64) ∧
    (0 ≤ v → Go.uint v = v) ∧
    Go.uint (-42) = 18446744073709551574 := by
  simp only [Go.minInt, Go.maxInt] at hlo hhi
  refine ⟨rfl, ?_, ?_, by decide⟩
  · intro h
    simp only [Go.uint, Go.ToFixedWidth, Go.truncateUnsigned, Bool.false_eq_true, if_false]
    omega
  · intro h
    simp only [Go.uint, Go.ToFixedWidth, Go.truncateUnsigned, Bool.false_eq_true, if_false]
    omega

/-- Witness of C1 at `v = -42`, the value the program converts. -/
theorem uint_of_int64_witness :
    Go.ToFixedWidth (-42) 64 false = Go.uint (-42) ∧
    ((-42 : Int) < 0 → Go.uint (-42) = -42 + 2 ^ 64) ∧
    ((0 : Int) ≤ -42 → Go.uint (-42) = -42) ∧
    Go.uint (-42) = 18446744073709551574 :=
  uint_of_int64 (-42) (by decide) (by decide)

/-- C5: conversion to an 8-bit type wraps by two's-complement truncation and is
total: for every integer `v`, `int8(v)` lies in `[-128, 127]`, is congruent to
`v` modulo 256 and is the only such value; `uint8(v)` lies in `[0, 255]`, is
congruent to `v` modulo 256 and is the only such value; `int8(256) = 0` and
`uint8(-1) = 255`. -/
theorem fixed_width_8_wraps (v : Int) :
    (Go.ToFixedWidth v 8 true = Go.int8 v ∧ Go.ToFixedWidth v 8 false = Go.uint8 v) ∧
    (-128 ≤ Go.int8 v ∧ Go.int8 v ≤ 127 ∧ (Go.int8 v - v) % 256 = 0 ∧
      ∀ r : Int, -128 ≤ r → r ≤ 127 → (r - v) % 256 = 0 → r = Go.int8 v) ∧
    (0 ≤ Go.uint8 v ∧ Go.uint8 v ≤ 255 ∧ (Go.uint8 v - v) % 256 = 0 ∧
      ∀ r : Int, 0 ≤ r → r ≤ 255 → (r - v) % 256 = 0 → r = Go.uint8 v) ∧
    Go.ToFixedWidth 256 8 true = 0 ∧ Go.ToFixedWidth (-1) 8 false = 255 := by
  refine ⟨⟨rfl, rfl⟩, ?_, ?_, by decide, by decide⟩
  · simp only [Go.int8, Go.ToFixedWidth, Go.truncateSigned, if_true]
    refine ⟨?_, ?_, ?_, ?_⟩
    · split <;> omega
    · split <;> omega
    · split <;> omega
    · intro r h1 h2 h3
      split <;> omega
  · simp only [Go.uint8, Go.ToFixedWidth, Go.truncateUnsigned, Bool.false_eq_true, if_false]
    refine ⟨?_, ?_, ?_, ?_⟩
    · omega
    · omega
    · omega
    · intro r h1 h2 h3
      omega

/-! ## Lemmas: decimal digit strings -/

namespace Spec

open Go

theorem val_ofNat (a : Nat) : (Fin.ofNat a : byte).val = a % 256 := rfl

theorem foldl_digits (ds : List byte) (n : Nat) :
    ds.foldl (fun n c => 10 * n + (c.val - 48)) n = n * 10 ^ ds.length + digitsValue ds := by
  induction ds generalizing n with
  | nil => simp [digitsValue]
  | cons c rest ih =>
    simp only [List.foldl_cons, List.length_cons, digitsValue]
    rw [ih, ih (10 * 0 + _)]
    ring

theorem digitsValue_cons (c : byte) (rest : List byte) :
    digitsValue (c :: rest) = (c.val - 48) * 10 ^ rest.length + digitsValue rest := by
  have h := foldl_digits rest (10 * 0 + (c.val - 48))
  simp only [digitsValue, List.foldl_cons] at h ⊢
  rw [h]
  ring

theorem digitsValue_snoc (ds : List byte) (d : byte) :
    digitsValue (ds ++ [d]) = 10 * digitsValue ds + (d.val - 48) := by
  simp [digitsValue, List.foldl_append]

theorem isDigit_iff (c : byte) : isDigit c = true ↔ 48 ≤ c.val ∧ c.val ≤ 57 := by
  simp [isDigit]

theorem digitsValue_lt (ds : List byte) (h : ds.all isDigit = true) :
    digitsValue ds < 10 ^ ds.length := by
  induction ds with
  | nil => simp [digitsValue]
  | cons c rest ih =>
    simp only [List.all_cons, Bool.and_eq_true] at h
    have hc := (isDigit_iff c).mp h.1
    have hr := ih h.2
    rw [digitsValue_cons, List.length_cons, pow_succ]
    have hk : c.val - 48 ≤ 9 := by omega
    have := Nat.mul_le_mul_right (10 ^ rest.length) hk
    linarith

theorem natText_lt (u : Nat) (h : u < 10) : natText u = [Fin.ofNat (48 + u)] := by
  rw [natText]
  simp [h]

theorem natText_ge (u : Nat) (h : 10 ≤ u) :
    natText u = natText (u / 10) ++ [Fin.ofNat (48 + u % 10)] := by
  rw [natText]
  simp [Nat.not_lt.mpr h]

theorem natText_all_digits (u : Nat) : (natText u).all isDigit = true := by
  induction u using Nat.strong_induction_on with
  | _ u ih =>
    by_cases h : u < 10
    · rw [natText_lt u h]
      simp [isDigit, val_ofNat]
      omega
    · rw [natText_ge u (by omega)]
      simp only [List.all_append, Bool.and_eq_true]
      refine ⟨ih (u / 10) (by omega), ?_⟩
      simp [isDigit, val_ofNat]
      omega

theorem digitsValue_natText (u : Nat) : digitsValue (natText u) = u := by
  induction u using Nat.strong_induction_on with
  | _ u ih =>
    by_cases h : u < 10
    · rw [natText_lt u h]
      simp [digitsValue, val_ofNat]
      omega
    · rw [natText_ge u (by omega), digitsValue_snoc, ih (u / 10) (by omega), val_ofNat]
      omega

theorem natText_ne_nil (u : Nat) : natText u ≠ [] := by
  by_cases h : u < 10
  · rw [natText_lt u h]; simp
  · rw [natText_ge u (by omega)]; simp

theorem natText_head (u : Nat) (hu : 1 ≤ u) :
    ∃ c rest, natText u = c :: rest ∧ c.val ≠ 48 := by
  induction u using Nat.strong_induction_on with
  | _ u ih =>
    by_cases h : u < 10
    · rw [natText_lt u h]
      refine ⟨_, [], rfl, ?_⟩
      rw [val_ofNat]
      omega
    · rw [natText_ge u (by omega)]
      obtain ⟨c, rest, hc, hne⟩ := ih (u / 10) (by omega) (by omega)
      rw [hc]
      exact ⟨c, rest ++ [Fin.ofNat (48 + u % 10)], by simp, hne⟩

theorem isCanonicalNat_natText (u : Nat) : isCanonicalNat (natText u) = true := by
  by_cases hu : 1 ≤ u
  · obtain ⟨c, rest, hc, hne⟩ := natText_head u hu
    have hall := natText_all_digits u
    rw [hc] at hall ⊢
    simp only [isCanonicalNat, hall, Bool.true_and, Bool.or_eq_true, decide_eq_true_eq]
    exact Or.inl hne
  · have h0 : u = 0 := by omega
    subst h0
    rw [natText_lt 0 (by omega)]
    decide

theorem natText_length_le (m u : Nat) (h : u < 10 ^ m) (hm : 1 ≤ m) :
    (natText u).length ≤ m := by
  induction m generalizing u with
  | zero => omega
  | succ m ih =>
    by_cases hu : u < 10
    · rw [natText_lt u hu]; simp
    · rw [natText_ge u (by omega)]
      simp only [List.length_append, List.length_singleton]
      have hm1 : 1 ≤ m := by
        rcases Nat.eq_zero_or_pos m with h0 | h0
        · subst h0; simp at h; omega
        · exact h0
      have : u / 10 < 10 ^ m := by
        rw [pow_succ] at h
        omega
      have := ih (u / 10) this hm1
      omega

/-- A canonical digit string is the digit text of its value. -/
theorem natText_digitsValue (ds : List byte) (h : isCanonicalNat ds = true) :
    natText (digitsValue ds) = ds := by
  induction ds using List.reverseRecOn with
  | nil => simp [isCanonicalNat] at h
  | append_singleton init d ih =>
    rw [digitsValue_snoc]
    cases init with
    | nil =>
      simp only [List.nil_append, isCanonicalNat, List.all_cons, List.all_nil, Bool.and_true,
        Bool.and_eq_true] at h
      have hd := (isDigit_iff d).mp h.1
      simp only [digitsValue, List.foldl_nil, List.nil_append]
      rw [natText_lt _ (by omega)]
      congr 1
      apply Fin.ext
      rw [val_ofNat]
      omega
    | cons c rest =>
      simp only [List.cons_append, isCanonicalNat, List.all_cons, List.all_append, List.all_nil,
        Bool.and_true, Bool.and_eq_true, Bool.or_eq_true, decide_eq_true_eq, List.isEmpty_eq_true,
        List.append_eq_nil, and_false, or_false, reduceCtorEq] at h
      obtain ⟨⟨hc, hrest, hd⟩, hne⟩ := h
      have hcan : isCanonicalNat (c :: rest) = true := by
        simp only [isCanonicalNat, List.all_cons, hc, hrest, Bool.and_self, Bool.true_and,
          Bool.or_eq_true, decide_eq_true_eq]
        exact Or.inl hne
      have hd2 := (isDigit_iff d).mp hd
      have hc2 := (isDigit_iff c).mp hc
      have hpos : 1 ≤ digitsValue (c :: rest) := by
        rw [digitsValue_cons]
        have hp : 0 < 10 ^ rest.length := by positivity
        have : 1 ≤ c.val - 48 := by omega
        nlinarith
      rw [natText_ge _ (by omega)]
      have e1 : (10 * digitsValue (c :: rest) + (d.val - 48)) / 10 = digitsValue (c :: rest) := by
        omega
      have e2 : (10 * digitsValue (c :: rest) + (d.val - 48)) % 10 = d.val - 48 := by omega
      rw [e1, e2, ih hcan]
      have : (Fin.ofNat (48 + (d.val - 48)) : byte) = d := by
        apply Fin.ext
        rw [val_ofNat]
        omega
      rw [this]

end Spec

/-! ## Lemmas: the digit loops of `strconv` and `fmt` produce the digit text -/

namespace Go

open Spec

theorem strconv.smallsString_lookup : ∀ k : Fin 100,
    strconv.smallsString.getD (k.val * 2) 0 = Fin.ofNat (48 + k.val / 10) ∧
    strconv.smallsString.getD (k.val * 2 + 1) 0 = Fin.ofNat (48 + k.val % 10) := by
  decide

theorem strconv.small_eq : ∀ k : Fin 100,
    strconv.small k.val =
      if k.val < 10 then [Fin.ofNat (48 + k.val)]
      else [Fin.ofNat (48 + k.val / 10), Fin.ofNat (48 + k.val % 10)] := by
  decide

theorem fmt.ldigits_lookup : ∀ k : Fin 10,
    fmt.ldigits.getD k.val 0 = Fin.ofNat (48 + k.val) := by
  decide

theorem natText_two (u : Nat) (h1 : 10 ≤ u) (h2 : u < 100) :
    natText u = [Fin.ofNat (48 + u / 10), Fin.ofNat (48 + u % 10)] := by
  rw [natText_ge u h1, natText_lt (u / 10) (by omega)]
  rfl

theorem natText_hundred (u : Nat) (h : 100 ≤ u) :
    natText u = natText (u / 100) ++
      [Fin.ofNat (48 + u % 100 / 10), Fin.ofNat (48 + u % 100 % 10)] := by
  rw [natText_ge u (by omega), natText_ge (u / 10) (by omega)]
  have e1 : u / 10 / 10 = u / 100 := by omega
  have e2 : u / 10 % 10 = u % 100 / 10 := by omega
  have e3 : u % 10 = u % 100 % 10 := by omega
  rw [e1, e2, ← e3]
  simp

theorem natText_small (u : Nat) (h : u < 100) : strconv.small u = natText u := by
  have := strconv.small_eq ⟨u, h⟩
  simp only at this
  rw [this]
  by_cases h10 : u < 10
  · rw [if_pos h10, natText_lt u h10]
  · rw [if_neg h10, natText_two u (by omega) h]

/-- The loop of `formatBits` stops with fewer than three digits left and has
stored the others; the index never leaves the array when the digits fit. -/
theorem strconv.formatBitsLoop_spec (u : Nat) : ∀ (i : Nat) (acc : List byte),
    (natText u).length ≤ i →
    ∃ us rest, strconv.formatBitsLoop i u acc = some (i - rest.length, us, rest ++ acc) ∧
      us < 100 ∧ natText u = natText us ++ rest := by
  induction u using Nat.strong_induction_on with
  | _ u ih =>
    intro i acc hlen
    by_cases h : 100 ≤ u
    · rw [natText_hundred u h] at hlen
      simp only [List.length_append, List.length_cons, List.length_nil] at hlen
      obtain ⟨j, rfl⟩ : ∃ j, i = j + 2 := ⟨i - 2, by omega⟩
      obtain ⟨us, rest, h1, h2, h3⟩ := ih (u / 100) (by omega) j
        (strconv.smallsString.getD (u % 100 * 2) 0 ::
          strconv.smallsString.getD (u % 100 * 2 + 1) 0 :: acc) (by omega)
      have hk := strconv.smallsString_lookup ⟨u % 100, by omega⟩
      simp only at hk
      refine ⟨us, rest ++ [Fin.ofNat (48 + u % 100 / 10), Fin.ofNat (48 + u % 100 % 10)], ?_, h2, ?_⟩
      · rw [strconv.formatBitsLoop]
        simp only [ge_iff_le, h, if_true]
        rw [h1, hk.1, hk.2]
        simp only [List.length_append, List.length_cons, List.length_nil, List.append_assoc,
          List.cons_append, List.nil_append]
        congr 2
        omega
      · rw [natText_hundred u h, h3, List.append_assoc]
    · refine ⟨u, [], ?_, by omega, by simp⟩
      have hnot : ¬ (u ≥ 100) := h
      match i with
      | 0 => simp [strconv.formatBitsLoop, hnot]
      | 1 => simp [strconv.formatBitsLoop, hnot]
      | j + 2 => simp [strconv.formatBitsLoop, hnot]

theorem strconv.formatBits_pos (u : Nat) (h : u < 2 ^ 64) :
    strconv.formatBits u false = some (natText u) := by
  have hlen : (natText u).length ≤ 20 :=
    natText_length_le 20 u (by omega) (by omega)
  obtain ⟨us, rest, h1, h2, h3⟩ := strconv.formatBitsLoop_spec u 65 [] (by omega)
  have hk := strconv.smallsString_lookup ⟨us, h2⟩
  simp only at hk
  have hrest : rest.length + (natText us).length = (natText u).length := by
    rw [h3]; simp; omega
  have hus : 1 ≤ (natText us).length := by
    have := natText_ne_nil us
    cases hh : natText us with
    | nil => exact absurd hh this
    | cons a b => simp
  simp only [strconv.formatBits, Bool.false_eq_true, if_false, h1, List.append_nil]
  rw [if_neg (by omega)]
  by_cases h10 : us ≥ 10
  · rw [if_pos h10, if_neg (by omega)]
    have e1 : us * 2 + 1 = us * 2 + 1 := rfl
    rw [hk.1, hk.2, h3, natText_two us h10 h2]
    rfl
  · rw [if_neg h10]
    rw [hk.2, h3, natText_lt us (by omega)]
    have : us % 10 = us := by omega
    rw [this]
    rfl

theorem strconv.formatBits_neg (u : Nat) (h0 : 0 < u) (h : u < 2 ^ 64) :
    strconv.formatBits u true = some ((45 : byte) :: natText (2 ^ 64 - u)) := by
  have hw : (2 ^ 64 - u) % 2 ^ 64 = 2 ^ 64 - u := by omega
  have hlen : (natText (2 ^ 64 - u)).length ≤ 20 :=
    natText_length_le 20 _ (by omega) (by omega)
  obtain ⟨us, rest, h1, h2, h3⟩ := strconv.formatBitsLoop_spec (2 ^ 64 - u) 65 [] (by omega)
  have hk := strconv.smallsString_lookup ⟨us, h2⟩
  simp only at hk
  have hrest : rest.length + (natText us).length = (natText (2 ^ 64 - u)).length := by
    rw [h3]; simp; omega
  have hus : 1 ≤ (natText us).length := by
    have := natText_ne_nil us
    cases hh : natText us with
    | nil => exact absurd hh this
    | cons a b => simp
  simp only [strconv.formatBits, if_true, hw, h1, List.append_nil]
  rw [if_neg (by omega)]
  by_cases h10 : us ≥ 10
  · have hl2 : (natText us).length = 2 := by rw [natText_two us h10 h2]; rfl
    rw [if_pos h10, if_neg (by omega), if_neg (by omega)]
    rw [hk.1, hk.2, h3, natText_two us h10 h2]
    rfl
  · rw [if_neg h10, if_neg (by omega)]
    rw [hk.2, h3, natText_lt us (by omega)]
    have : us % 10 = us := by omega
    rw [this]
    rfl

end Go

/-! ## Lemmas: `Itoa` and `%d` produce the canonical text -/

namespace Go

open Spec

theorem int64_of_range (v : Int) (hlo : minInt ≤ v) (hhi : v ≤ maxInt) : int64 v = v := by
  simp only [minInt, maxInt] at hlo hhi
  simp only [int64, ToFixedWidth, truncateSigned, if_true]
  split <;> omega

theorem int_of_range (v : Int) (hlo : minInt ≤ v) (hhi : v ≤ maxInt) : int v = v :=
  int64_of_range v hlo hhi

theorem uint64_nonneg (v : Int) (h0 : 0 ≤ v) (hhi : v < 2 ^ 64) : uint64 v = v := by
  simp only [uint64, ToFixedWidth, truncateUnsigned, Bool.false_eq_true, if_false]
  omega

theorem uint64_neg (v : Int) (hlo : minInt ≤ v) (h0 : v < 0) : uint64 v = v + 2 ^ 64 := by
  simp only [minInt] at hlo
  simp only [uint64, ToFixedWidth, truncateUnsigned, Bool.false_eq_true, if_false]
  omega

/-- Function `FormatInt` returns the canonical text of every 64-bit value. -/
theorem strconv.FormatInt_eq (v : Int) (hlo : minInt ≤ v) (hhi : v ≤ maxInt) :
    strconv.FormatInt v = some (canonicalText v) := by
  have hlo2 := hlo
  have hhi2 := hhi
  simp only [minInt, maxInt] at hlo2 hhi2
  unfold strconv.FormatInt canonicalText
  by_cases h0 : v < 0
  · rw [if_neg (by omega), if_pos h0, uint64_neg v hlo h0]
    have hd : decide (v < 0) = true := by simp [h0]
    rw [hd, strconv.formatBits_neg _ (by omega) (by omega)]
    congr 3
    omega
  · rw [if_neg h0]
    have hd : decide (v < 0) = false := by simp [h0]
    by_cases h100 : v < 100
    · rw [if_pos ⟨by omega, h100⟩, natText_small _ (by omega)]
      congr 2
      omega
    · rw [if_neg (by omega), hd, uint64_nonneg v (by omega) (by omega),
        strconv.formatBits_pos _ (by omega)]
      congr 2
      omega

/-- Function `Itoa` returns the canonical text of every `int`. -/
theorem strconv.Itoa_eq (v : Int) (hlo : minInt ≤ v) (hhi : v ≤ maxInt) :
    strconv.Itoa v = some (canonicalText v) := by
  unfold strconv.Itoa
  rw [int64_of_range v hlo hhi, strconv.FormatInt_eq v hlo hhi]

/-- The loop of `fmtInteger` stops at the leading digit and has stored the
others; the index never leaves the buffer when the digits fit. -/
theorem fmt.fmtIntegerLoop_spec (u : Nat) : ∀ (i : Nat) (acc : List byte),
    (natText u).length ≤ i + 1 →
    ∃ us rest, fmt.fmtIntegerLoop i u acc = some (i - rest.length, us, rest ++ acc) ∧
      us < 10 ∧ natText u = natText us ++ rest := by
  induction u using Nat.strong_induction_on with
  | _ u ih =>
    intro i acc hlen
    by_cases h : 10 ≤ u
    · rw [natText_ge u h] at hlen
      simp only [List.length_append, List.length_cons, List.length_nil] at hlen
      obtain ⟨j, rfl⟩ : ∃ j, i = j + 1 := ⟨i - 1, by
        have := natText_ne_nil (u / 10)
        cases hh : natText (u / 10) with
        | nil => exact absurd hh this
        | cons a b => rw [hh] at hlen; simp at hlen; omega⟩
      have hb : (Fin.ofNat ((48 + u - u / 10 * 10) % 256) : byte) = Fin.ofNat (48 + u % 10) := by
        apply Fin.ext
        rw [val_ofNat, val_ofNat]
        omega
      obtain ⟨us, rest, h1, h2, h3⟩ := ih (u / 10) (by omega) j
        (Fin.ofNat (48 + u % 10) :: acc) (by omega)
      refine ⟨us, rest ++ [Fin.ofNat (48 + u % 10)], ?_, h2, ?_⟩
      · rw [fmt.fmtIntegerLoop]
        simp only [ge_iff_le, h, if_true]
        rw [hb, h1]
        simp only [List.length_append, List.length_cons, List.length_nil, List.append_assoc,
          List.cons_append, List.nil_append]
        congr 2
        omega
      · rw [natText_ge u h, h3, List.append_assoc]
    · refine ⟨u, [], ?_, by omega, by simp⟩
      have hnot : ¬ (u ≥ 10) := h
      match i with
      | 0 => simp [fmt.fmtIntegerLoop, hnot]
      | j + 1 => simp [fmt.fmtIntegerLoop, hnot]

theorem fmt.fmtIntegerLoop_final (u : Nat) (h : u < 2 ^ 64) :
    ∃ i us rest, fmt.fmtIntegerLoop 68 u [] = some (i, us, rest) ∧ 2 ≤ i ∧
      fmt.ldigits.getD us 0 :: rest = natText u := by
  have hlen : (natText u).length ≤ 20 :=
    natText_length_le 20 u (by omega) (by omega)
  obtain ⟨us, rest, h1, h2, h3⟩ := fmt.fmtIntegerLoop_spec u 68 [] (by omega)
  have hk := fmt.ldigits_lookup ⟨us, h2⟩
  simp only at hk
  have hrest : rest.length + 1 = (natText u).length := by
    rw [h3, natText_lt us h2]; simp
  refine ⟨68 - rest.length, us, rest, by simpa using h1, by omega, ?_⟩
  rw [hk, h3, natText_lt us h2]
  rfl

theorem fmt.fmtInteger_unsigned (u : Nat) (h : u < 2 ^ 64) :
    fmt.fmtInteger u false = some (natText u) := by
  obtain ⟨i, us, rest, h1, h2, h3⟩ := fmt.fmtIntegerLoop_final u h
  simp only [fmt.fmtInteger, Bool.false_and, Bool.false_eq_true, if_false, h1]
  rw [if_neg (by omega), h3]

/-- Verb `%d` on a signed 64-bit value writes its canonical text. -/
theorem fmt.fmtInteger_signed (v : Int) (hlo : minInt ≤ v) (hhi : v ≤ maxInt) :
    fmt.fmtInteger (uint64 v).toNat true = some (canonicalText v) := by
  have hlo2 := hlo
  have hhi2 := hhi
  simp only [minInt, maxInt] at hlo2 hhi2
  unfold canonicalText
  by_cases h0 : v < 0
  · rw [if_pos h0, uint64_neg v hlo h0]
    have hge : (2 : Nat) ^ 63 ≤ (v + 2 ^ 64).toNat := by omega
    have hw : (2 ^ 64 - (v + 2 ^ 64).toNat) % 2 ^ 64 = v.natAbs := by omega
    obtain ⟨i, us, rest, h1, h2, h3⟩ := fmt.fmtIntegerLoop_final v.natAbs (by omega)
    simp only [fmt.fmtInteger, Bool.true_and, hge, decide_True, if_true, hw, h1]
    rw [if_neg (by omega), if_neg (by omega), h3]
  · rw [if_neg h0, uint64_nonneg v (by omega) (by omega)]
    have hw : v.toNat = v.natAbs := by omega
    have hlt : ¬ ((2 : Nat) ^ 63 ≤ v.natAbs) := by omega
    obtain ⟨i, us, rest, h1, h2, h3⟩ := fmt.fmtIntegerLoop_final v.natAbs (by omega)
    rw [hw]
    simp only [fmt.fmtInteger, Bool.true_and, hlt, decide_False, Bool.false_eq_true, if_false,
      h1]
    rw [if_neg (by omega), h3]

end Go

/-! ## Lemmas: the canonical text and the glossary's predicate agree -/

namespace Spec

open Go

theorem natText_head_digit (u : Nat) :
    ∃ c rest, natText u = c :: rest ∧ 48 ≤ c.val ∧ c.val ≤ 57 := by
  have hall := natText_all_digits u
  cases hh : natText u with
  | nil => exact absurd hh (natText_ne_nil u)
  | cons c rest =>
    rw [hh] at hall
    simp only [List.all_cons, Bool.and_eq_true] at hall
    exact ⟨c, rest, rfl, (isDigit_iff c).mp hall.1⟩

theorem isCanonicalDecimal_minus (rest : List byte) :
    isCanonicalDecimal ((45 : byte) :: rest) =
      (isCanonicalNat rest && decide (rest ≠ [(48 : byte)])) := rfl

theorem decimalValue_minus (rest : List byte) :
    decimalValue ((45 : byte) :: rest) = -(digitsValue rest : Int) := rfl

theorem isCanonicalDecimal_digit (c : byte) (rest : List byte) (h : c.val ≠ 45) :
    isCanonicalDecimal (c :: rest) = isCanonicalNat (c :: rest) := by
  simp [isCanonicalDecimal, h]

theorem decimalValue_digit (c : byte) (rest : List byte) (h1 : c.val ≠ 45) (h2 : c.val ≠ 43) :
    decimalValue (c :: rest) = (digitsValue (c :: rest) : Int) := by
  simp [decimalValue, isNegative, dropSign, h1, h2]

theorem isCanonicalDecimal_canonicalText (v : Int) :
    isCanonicalDecimal (canonicalText v) = true := by
  unfold canonicalText
  by_cases h0 : v < 0
  · rw [if_pos h0]
    obtain ⟨c, rest, hc, hne⟩ := natText_head v.natAbs (by omega)
    rw [isCanonicalDecimal_minus]
    simp only [Bool.and_eq_true, decide_eq_true_eq]
    refine ⟨isCanonicalNat_natText _, ?_⟩
    rw [hc]
    intro hcontra
    injection hcontra with h1 h2
    apply hne
    rw [h1]
    rfl
  · rw [if_neg h0]
    obtain ⟨c, rest, hc, h1, h2⟩ := natText_head_digit v.natAbs
    have hcan := isCanonicalNat_natText v.natAbs
    rw [hc] at hcan ⊢
    rw [isCanonicalDecimal_digit c rest (by omega)]
    exact hcan

theorem decimalValue_canonicalText (v : Int) : decimalValue (canonicalText v) = v := by
  unfold canonicalText
  by_cases h0 : v < 0
  · rw [if_pos h0]
    rw [decimalValue_minus, digitsValue_natText]
    omega
  · rw [if_neg h0]
    obtain ⟨c, rest, hc, h1, h2⟩ := natText_head_digit v.natAbs
    have hv := digitsValue_natText v.natAbs
    rw [hc] at hv ⊢
    rw [decimalValue_digit c rest (by omega) (by omega), hv]
    omega

/-- A canonical decimal text is the canonical text of the integer it
denotes: the canonical text of an integer is unique. -/
theorem canonicalText_decimalValue (s : List byte) (h : isCanonicalDecimal s = true) :
    canonicalText (decimalValue s) = s := by
  cases s with
  | nil => simp [isCanonicalDecimal] at h
  | cons c rest =>
    by_cases hc : c.val = 45
    · have hc45 : c = (45 : byte) := Fin.ext hc
      subst hc45
      rw [isCanonicalDecimal_minus] at h
      simp only [Bool.and_eq_true, decide_eq_true_eq] at h
      obtain ⟨hcan, hne⟩ := h
      have hpos : 1 ≤ digitsValue rest := by
        cases rest with
        | nil => simp [isCanonicalNat] at hcan
        | cons d r =>
          simp only [isCanonicalNat, List.all_cons, Bool.and_eq_true, Bool.or_eq_true,
            decide_eq_true_eq, List.isEmpty_eq_true] at hcan
          obtain ⟨⟨hd, hr⟩, hz⟩ := hcan
          have hd2 := (isDigit_iff d).mp hd
          rcases hz with hz | hz
          · rw [digitsValue_cons]
            have hp : 0 < 10 ^ r.length := by positivity
            have h1 : 1 ≤ d.val - 48 := by omega
            have := Nat.mul_le_mul h1 hp
            omega
          · subst hz
            have : d.val ≠ 48 := by
              intro h48
              apply hne
              congr 1
              exact Fin.ext h48
            simp only [digitsValue, List.foldl_cons, List.foldl_nil]
            omega
      rw [decimalValue_minus]
      unfold canonicalText
      rw [if_pos (by omega)]
      have : (-(digitsValue rest : Int)).natAbs = digitsValue rest := by omega
      rw [this, natText_digitsValue rest hcan]
    · rw [isCanonicalDecimal_digit c rest hc] at h
      have h' := h
      simp only [isCanonicalNat, List.all_cons, Bool.and_eq_true] at h'
      have hd := (isDigit_iff c).mp h'.1.1
      rw [decimalValue_digit c rest hc (by omega)]
      unfold canonicalText
      rw [if_neg (by omega)]
      have : ((digitsValue (c :: rest) : Int)).natAbs = digitsValue (c :: rest) := by omega
      rw [this, natText_digitsValue _ h]

end Spec

/-! ## Lemmas: the parsing loops of `strconv` -/

namespace Go

open Spec

/-- On digits the fast loop of `Atoi` accumulates the decimal value. -/
theorem strconv.atoiLoop_digits (ds : List byte) : ∀ (n : Nat),
    ds.all isDigit = true → n * 10 ^ ds.length + digitsValue ds < 2 ^ 63 →
    strconv.atoiLoop ds (n : Int) = some ((n * 10 ^ ds.length + digitsValue ds : Nat) : Int) := by
  induction ds with
  | nil => intro n _ _; simp [strconv.atoiLoop, digitsValue]
  | cons c rest ih =>
    intro n hall hb
    simp only [List.all_cons, Bool.and_eq_true] at hall
    have hc := (isDigit_iff c).mp hall.1
    rw [digitsValue_cons, List.length_cons, pow_succ] at hb
    have hp : 0 < 10 ^ rest.length := by positivity
    have hle : (n * 10 + (c.val - 48)) * 1 ≤ (n * 10 + (c.val - 48)) * 10 ^ rest.length :=
      Nat.mul_le_mul_left _ hp
    have hexp : (n * 10 + (c.val - 48)) * 10 ^ rest.length + digitsValue rest =
        n * (10 ^ rest.length * 10) + ((c.val - 48) * 10 ^ rest.length + digitsValue rest) := by
      ring
    have hstep : int ((n : Int) * 10 + int (((c.val + 256 - 48) % 256 : Nat) : Int)) =
        ((n * 10 + (c.val - 48) : Nat) : Int) := by
      have e : (c.val + 256 - 48) % 256 = c.val - 48 := by omega
      have e1 : int (((c.val - 48 : Nat)) : Int) = ((c.val - 48 : Nat) : Int) :=
        int_of_range _ (by simp only [minInt]; omega) (by simp only [maxInt]; omega)
      rw [e, e1, int_of_range _ (by simp only [minInt]; omega) (by simp only [maxInt]; omega)]
      push_cast
      rfl
    have hnot : ¬ ((c.val + 256 - 48) % 256 > 9) := by omega
    rw [strconv.atoiLoop]
    simp only [hnot, if_false]
    rw [hstep, ih (n * 10 + (c.val - 48)) hall.2 (by omega)]
    rw [digitsValue_cons, List.length_cons, pow_succ, hexp]

/-- A byte that is not a digit stops the fast loop of `Atoi`. -/
theorem strconv.atoiLoop_nondigit (ds : List byte) : ∀ (n : Int),
    ds.all isDigit = false → strconv.atoiLoop ds n = none := by
  induction ds with
  | nil => intro n h; simp at h
  | cons c rest ih =>
    intro n h
    rw [strconv.atoiLoop]
    by_cases hc : isDigit c = true
    · have hr : rest.all isDigit = false := by
        simp only [List.all_cons, hc, Bool.true_and] at h
        exact h
      have hc2 := (isDigit_iff c).mp hc
      have hnot : ¬ ((c.val + 256 - 48) % 256 > 9) := by omega
      simp only [hnot, if_false]
      exact ih _ hr
    · have hc2 : ¬ (48 ≤ c.val ∧ c.val ≤ 57) := fun hh => hc ((isDigit_iff c).mpr hh)
      have hgt : (c.val + 256 - 48) % 256 > 9 := by
        have := c.isLt
        omega
      simp only [hgt, if_true]

theorem strconv.digitVal_digit (c : byte) (h : isDigit c = true) :
    strconv.digitVal c = some (c.val - 48) := by
  have hc := (isDigit_iff c).mp h
  simp [strconv.digitVal, hc]

theorem strconv.digitVal_nondigit (c : byte) (h : isDigit c = false) :
    strconv.digitVal c = none ∨ ∃ d, strconv.digitVal c = some d ∧ 10 ≤ d := by
  have hc : ¬ (48 ≤ c.val ∧ c.val ≤ 57) := fun hh => by
    rw [(isDigit_iff c).mpr hh] at h
    exact Bool.noConfusion h
  unfold strconv.digitVal
  rw [if_neg hc]
  by_cases hl : 97 ≤ strconv.lower c.val ∧ strconv.lower c.val ≤ 122
  · rw [if_pos hl]
    exact Or.inr ⟨_, rfl, by omega⟩
  · rw [if_neg hl]
    exact Or.inl rfl

/-- The loop of `ParseUint` ends in one of three ways: a value with no error,
0 with a syntax error, or `maxVal` with a range error. -/
theorem strconv.parseUintLoop_cases (fn : String) (s0 : List byte) (maxVal : Nat)
    (ds : List byte) : ∀ (n : Nat),
    (∃ m, strconv.parseUintLoop fn s0 maxVal ds n = (m, none)) ∨
    strconv.parseUintLoop fn s0 maxVal ds n = (0, some (strconv.syntaxError fn s0)) ∨
    strconv.parseUintLoop fn s0 maxVal ds n = (maxVal, some (strconv.rangeError fn s0)) := by
  induction ds with
  | nil => intro n; exact Or.inl ⟨n, rfl⟩
  | cons c rest ih =>
    intro n
    rw [strconv.parseUintLoop]
    cases hd : strconv.digitVal c with
    | none => exact Or.inr (Or.inl rfl)
    | some d =>
      simp only
      split
      · exact Or.inr (Or.inl rfl)
      · split
        · exact Or.inr (Or.inr rfl)
        · split
          · exact Or.inr (Or.inr rfl)
          · exact ih _

/-- A byte that is not a digit makes the loop of `ParseUint` fail. -/
theorem strconv.parseUintLoop_nondigit (fn : String) (s0 : List byte) (maxVal : Nat)
    (ds : List byte) : ∀ (n : Nat), ds.all isDigit = false →
    (strconv.parseUintLoop fn s0 maxVal ds n).2 ≠ none := by
  induction ds with
  | nil => intro n h; simp at h
  | cons c rest ih =>
    intro n h
    rw [strconv.parseUintLoop]
    by_cases hc : isDigit c = true
    · have hr : rest.all isDigit = false := by
        simp only [List.all_cons, hc, Bool.true_and] at h
        exact h
      rw [strconv.digitVal_digit c hc]
      simp only
      split
      · simp
      · split
        · simp
        · split
          · simp
          · exact ih _ hr
    · have hc' : isDigit c = false := by simpa using hc
      rcases strconv.digitVal_nondigit c hc' with h1 | ⟨d, h1, h2⟩
      · rw [h1]; simp
      · rw [h1]
        simp only [ge_iff_le, h2, if_true]
        simp

/-- On digits the loop of `ParseUint` returns the decimal value when it is at
most `maxVal`, and `maxVal` with a range error when it is larger. -/
theorem strconv.parseUintLoop_digits (fn : String) (s0 : List byte) (maxVal : Nat)
    (hmax : maxVal < 2 ^ 64) (ds : List byte) : ∀ (n : Nat),
    ds.all isDigit = true → n ≤ maxVal →
    strconv.parseUintLoop fn s0 maxVal ds n =
      if n * 10 ^ ds.length + digitsValue ds ≤ maxVal
      then (n * 10 ^ ds.length + digitsValue ds, none)
      else (maxVal, some (strconv.rangeError fn s0)) := by
  induction ds with
  | nil => intro n _ hn; simp [strconv.parseUintLoop, digitsValue, hn]
  | cons c rest ih =>
    intro n hall hn
    simp only [List.all_cons, Bool.and_eq_true] at hall
    have hc := (isDigit_iff c).mp hall.1
    have hp : 0 < 10 ^ rest.length := by positivity
    have hle : (n * 10 + (c.val - 48)) * 1 ≤ (n * 10 + (c.val - 48)) * 10 ^ rest.length :=
      Nat.mul_le_mul_left _ hp
    have hexp : (n * 10 + (c.val - 48)) * 10 ^ rest.length + digitsValue rest =
        n * 10 ^ (c :: rest).length + digitsValue (c :: rest) := by
      rw [digitsValue_cons, List.length_cons, pow_succ]
      ring
    rw [strconv.parseUintLoop, strconv.digitVal_digit c hall.1]
    simp only [strconv.maxUint64]
    rw [if_neg (by omega)]
    by_cases hcut : n ≥ (2 ^ 64 - 1) / 10 + 1
    · rw [if_pos hcut, if_neg (by omega)]
    · rw [if_neg hcut]
      have h10 : n * 10 % 2 ^ 64 = n * 10 := by omega
      rw [h10]
      by_cases hov : n * 10 + (c.val - 48) < 2 ^ 64
      · have h1 : (n * 10 + (c.val - 48)) % 2 ^ 64 = n * 10 + (c.val - 48) := by omega
        rw [h1]
        by_cases hmv : n * 10 + (c.val - 48) > maxVal
        · rw [if_pos (Or.inr hmv), if_neg (by omega)]
        · rw [if_neg (by omega), ih _ hall.2 (by omega), hexp]
      · rw [if_pos (Or.inl (by omega)), if_neg (by omega)]

end Go

/-! ## Lemmas: `ParseInt` and `Atoi` -/

namespace Go

open Spec

theorem strconv.atoiLoop_digits_zero (ds : List byte) (hall : ds.all isDigit = true)
    (hb : digitsValue ds < 2 ^ 63) :
    strconv.atoiLoop ds 0 = some (digitsValue ds : Int) := by
  have h := strconv.atoiLoop_digits ds 0 hall (by omega)
  simpa using h

theorem digitsValue_lt_of_length (ds : List byte) (hall : ds.all isDigit = true)
    (hlen : ds.length < 19) : digitsValue ds < 10 ^ 18 := by
  have h1 := digitsValue_lt ds hall
  have h2 : 10 ^ ds.length ≤ 10 ^ 18 := Nat.pow_le_pow_right (by omega) (by omega)
  omega

/-- The fast path of `Atoi`: on a text of 1 to 18 bytes the result is the
decimal value when the text is a sign and digits, and a syntax error with
value 0 otherwise. -/
theorem strconv.Atoi_fast (s : List byte) (h0 : 0 < s.length) (h19 : s.length < 19) :
    strconv.Atoi s =
      if isDecimalSyntax s then (decimalValue s, none)
      else (0, some (strconv.syntaxError "Atoi" s)) := by
  cases s with
  | nil => simp at h0
  | cons c rest =>
    have hfast : 0 < (c :: rest).length ∧ (c :: rest).length < 19 := ⟨h0, h19⟩
    simp only [List.length_cons] at h19
    unfold strconv.Atoi
    simp only [hfast, and_self, if_true, List.headD_cons, List.tail_cons]
    by_cases hs : c.val = 45 ∨ c.val = 43
    · have hds : dropSign (c :: rest) = rest := by simp [dropSign, hs]
      simp only [hs, if_true, true_and]
      cases rest with
      | nil =>
        simp [isDecimalSyntax, hds]
      | cons d r =>
        have hl : ¬ ((d :: r).length < 1) := by simp
        rw [if_neg hl]
        by_cases hall : (d :: r).all isDigit = true
        · have hv := digitsValue_lt_of_length (d :: r) hall (by simp only [List.length_cons] at h19 ⊢; omega)
          have hsyn : isDecimalSyntax (c :: d :: r) = true := by
            simp only [isDecimalSyntax, hds, hall, List.isEmpty_cons, Bool.not_false, Bool.and_self]
          rw [strconv.atoiLoop_digits_zero _ hall (by omega), hsyn]
          simp only [if_true]
          by_cases h45 : c.val = 45
          · have hneg : isNegative (c :: d :: r) = true := by simp [isNegative, h45]
            simp only [h45, if_true, decimalValue, hneg, hds]
            rw [int_of_range _ (by simp only [minInt]; omega) (by simp only [maxInt]; omega)]
          · have hneg : isNegative (c :: d :: r) = false := by simp [isNegative, h45]
            simp only [h45, if_false, decimalValue, hneg, hds, Bool.false_eq_true]
        · have hall' : (d :: r).all isDigit = false := by simpa using hall
          have hsyn : isDecimalSyntax (c :: d :: r) = false := by
            simp only [isDecimalSyntax, hds, hall', Bool.and_false]
          rw [strconv.atoiLoop_nondigit _ _ hall', hsyn]
          simp
    · have hds : dropSign (c :: rest) = c :: rest := by simp [dropSign, hs]
      have h45 : ¬ c.val = 45 := fun h => hs (Or.inl h)
      simp only [hs, if_false, false_and]
      by_cases hall : (c :: rest).all isDigit = true
      · have hv := digitsValue_lt_of_length (c :: rest) hall (by simp only [List.length_cons]; omega)
        have hsyn : isDecimalSyntax (c :: rest) = true := by
          simp only [isDecimalSyntax, hds, hall, List.isEmpty_cons, Bool.not_false, Bool.and_self]
        have hneg : isNegative (c :: rest) = false := by simp [isNegative, h45]
        rw [strconv.atoiLoop_digits_zero _ hall (by omega), hsyn]
        simp only [h45, if_false, if_true, decimalValue, hneg, hds, Bool.false_eq_true]
      · have hall' : (c :: rest).all isDigit = false := by simpa using hall
        have hsyn : isDecimalSyntax (c :: rest) = false := by
          simp only [isDecimalSyntax, hds, hall', Bool.and_false]
        rw [strconv.atoiLoop_nondigit _ _ hall', hsyn]
        simp

/-- The range check of `ParseInt` at the 64-bit size. -/
theorem strconv.ParseIntRange_eq (s0 : List byte) (neg : Bool) (un : Nat) (h : un < 2 ^ 64) :
    strconv.parseIntRange s0 neg un 0 =
      if neg then
        (if un ≤ 2 ^ 63 then (-(un : Int), none)
         else (minInt, some (strconv.rangeError "ParseInt" s0)))
      else
        (if un ≤ 2 ^ 63 - 1 then ((un : Int), none)
         else (maxInt, some (strconv.rangeError "ParseInt" s0))) := by
  have hcut : (2 ^ (64 - 1)) % 2 ^ 64 = 2 ^ 63 := by norm_num
  have hmax : int64 (((2 ^ 63 - 1 : Nat)) : Int) = maxInt := by decide
  have hmin : int64 (-(int64 ((2 ^ 63 : Nat) : Int))) = minInt := by decide
  unfold strconv.parseIntRange
  simp only [if_true, strconv.IntSize, hcut]
  cases neg with
  | true =>
    simp only [Bool.not_true, Bool.false_eq_true, false_and, if_false, true_and, if_true]
    by_cases hgt : un > 2 ^ 63
    · rw [if_pos hgt, if_neg (by omega), hmin]
    · rw [if_neg hgt, if_pos (by omega)]
      congr 1
      simp only [int64, ToFixedWidth, truncateSigned, if_true]
      split <;> split <;> omega
  | false =>
    simp only [Bool.not_false, true_and, Bool.false_eq_true, false_and, if_false]
    by_cases hge : un ≥ 2 ^ 63
    · rw [if_pos hge, if_neg (by omega), hmax]
    · rw [if_neg hge, if_pos (by omega)]
      congr 1
      simp only [int64, ToFixedWidth, truncateSigned, if_true]
      split <;> omega

theorem strconv.ParseUint_eq_loop (s : List byte) (h : s ≠ []) :
    strconv.ParseUint s 0 = strconv.parseUintLoop "ParseUint" s (2 ^ 64 - 1) s 0 := by
  unfold strconv.ParseUint
  rw [if_neg h, if_neg (by omega)]
  simp only [if_true, strconv.IntSize]
  rfl

/-- Function `ParseInt` after the sign is picked off. -/
theorem strconv.ParseInt_cons (c : byte) (rest : List byte) :
    strconv.ParseInt (c :: rest) 0 =
      match strconv.ParseUint (dropSign (c :: rest)) 0 with
      | (un, some e) =>
        if e.Err ≠ strconv.Err.ErrRange
        then (0, some { e with Func := "ParseInt", Num := c :: rest })
        else strconv.parseIntRange (c :: rest) (isNegative (c :: rest)) un 0
      | (un, none) =>
        strconv.parseIntRange (c :: rest) (isNegative (c :: rest)) un 0 := by
  have hds : (if c.val = 43 then rest else if c.val = 45 then rest else c :: rest) =
      dropSign (c :: rest) := by
    simp only [dropSign]
    by_cases h43 : c.val = 43
    · simp [h43]
    · by_cases h45 : c.val = 45
      · simp [h45]
      · simp [h43, h45]
  unfold strconv.ParseInt
  simp only [hds, isNegative]
  rcases strconv.ParseUint (dropSign (c :: rest)) 0 with ⟨un, _ | e⟩ <;> rfl

end Go

namespace Go

open Spec

/-- Function `ParseInt` on a sign and digits: the value when it fits, the
nearest bound with a range error when it does not. -/
theorem strconv.ParseInt_syntax (s : List byte) (h : isDecimalSyntax s = true) :
    strconv.ParseInt s 0 =
      if isNegative s then
        (if digitsValue (dropSign s) ≤ 2 ^ 63 then (-(digitsValue (dropSign s) : Int), none)
         else (minInt, some (strconv.rangeError "ParseInt" s)))
      else
        (if digitsValue (dropSign s) ≤ 2 ^ 63 - 1 then ((digitsValue (dropSign s) : Int), none)
         else (maxInt, some (strconv.rangeError "ParseInt" s))) := by
  cases s with
  | nil => simp [isDecimalSyntax, dropSign] at h
  | cons c rest =>
    simp only [isDecimalSyntax, Bool.and_eq_true, Bool.not_eq_true', List.isEmpty_eq_false] at h
    obtain ⟨hne, hall⟩ := h
    rw [strconv.ParseInt_cons, strconv.ParseUint_eq_loop _ hne,
      strconv.parseUintLoop_digits _ _ _ (by omega) _ 0 hall (by omega)]
    simp only [Nat.zero_mul, Nat.zero_add]
    by_cases hfit : digitsValue (dropSign (c :: rest)) ≤ 2 ^ 64 - 1
    · rw [if_pos hfit]
      simp only
      rw [strconv.ParseIntRange_eq _ _ _ (by omega)]
    · rw [if_neg hfit]
      simp only [strconv.rangeError, ne_eq, not_true_eq_false, if_false]
      rw [strconv.ParseIntRange_eq _ _ _ (by omega)]
      cases isNegative (c :: rest) with
      | true =>
        simp only [if_true]
        rw [if_neg (by omega), if_neg (by omega)]
        rfl
      | false =>
        simp only [Bool.false_eq_true, if_false]
        rw [if_neg (by omega), if_neg (by omega)]
        rfl

/-- Function `ParseInt` on any other text fails: with value 0 and a syntax
error, or, when the digits before the offending byte already overflow, with
the nearest bound and a range error. -/
theorem strconv.ParseInt_not_syntax (s : List byte) (h : isDecimalSyntax s = false) :
    strconv.ParseInt s 0 = (0, some ⟨"ParseInt", s, strconv.Err.ErrSyntax⟩) ∨
    strconv.ParseInt s 0 =
      (if isNegative s then minInt else maxInt, some ⟨"ParseInt", s, strconv.Err.ErrRange⟩) := by
  cases s with
  | nil => exact Or.inl rfl
  | cons c rest =>
    rw [strconv.ParseInt_cons]
    by_cases hne : dropSign (c :: rest) = []
    · rw [hne]
      exact Or.inl rfl
    · have hall : (dropSign (c :: rest)).all isDigit = false := by
        simp only [isDecimalSyntax, Bool.and_eq_false_iff, Bool.not_eq_false',
          List.isEmpty_iff] at h
        rcases h with h | h
        · exact absurd h hne
        · exact h
      rw [strconv.ParseUint_eq_loop _ hne]
      have hbad := strconv.parseUintLoop_nondigit "ParseUint" (dropSign (c :: rest))
        (2 ^ 64 - 1) (dropSign (c :: rest)) 0 hall
      rcases strconv.parseUintLoop_cases "ParseUint" (dropSign (c :: rest))
        (2 ^ 64 - 1) (dropSign (c :: rest)) 0 with ⟨m, hm⟩ | hm | hm
      · rw [hm] at hbad
        exact absurd rfl hbad
      · rw [hm]
        exact Or.inl rfl
      · rw [hm]
        simp only [strconv.rangeError, ne_eq, not_true_eq_false, if_false]
        rw [strconv.ParseIntRange_eq _ _ _ (by omega)]
        right
        cases isNegative (c :: rest) with
        | true =>
          simp only [if_true]
          rw [if_neg (by omega)]
          rfl
        | false =>
          simp only [Bool.false_eq_true, if_false]
          rw [if_neg (by omega)]
          rfl

theorem strconv.Atoi_slow (s : List byte) (h : ¬ (0 < s.length ∧ s.length < 19)) :
    strconv.Atoi s = (int (strconv.ParseInt s 0).1,
      (strconv.ParseInt s 0).2.map fun nerr => { nerr with Func := "Atoi" }) := by
  unfold strconv.Atoi
  simp only [h, if_false]

theorem decimalValue_eq (s : List byte) :
    decimalValue s =
      if isNegative s then -(digitsValue (dropSign s) : Int) else (digitsValue (dropSign s) : Int) :=
  rfl

/-- What `Atoi` returns on every text: the value when the text is a sign and
digits in range; the nearest bound with a range error when it is a sign and
digits out of range; on any other text a syntax error with value 0 or, when
leading digits already overflow, a range error with the nearest bound. -/
theorem strconv.Atoi_cases (s : List byte) :
    (isDecimalSyntax s = true ∧ minInt ≤ decimalValue s ∧ decimalValue s ≤ maxInt ∧
      strconv.Atoi s = (decimalValue s, none)) ∨
    (isDecimalSyntax s = true ∧ decimalValue s < minInt ∧ isNegative s = true ∧
      strconv.Atoi s = (minInt, some ⟨"Atoi", s, strconv.Err.ErrRange⟩)) ∨
    (isDecimalSyntax s = true ∧ maxInt < decimalValue s ∧ isNegative s = false ∧
      strconv.Atoi s = (maxInt, some ⟨"Atoi", s, strconv.Err.ErrRange⟩)) ∨
    (isDecimalSyntax s = false ∧
      (strconv.Atoi s = (0, some ⟨"Atoi", s, strconv.Err.ErrSyntax⟩) ∨
       strconv.Atoi s =
        (if isNegative s then minInt else maxInt, some ⟨"Atoi", s, strconv.Err.ErrRange⟩))) := by
  have hint0 : int 0 = 0 := by decide
  have hintmin : int minInt = minInt := by decide
  have hintmax : int maxInt = maxInt := by decide
  by_cases hfast : 0 < s.length ∧ s.length < 19
  · rw [strconv.Atoi_fast s hfast.1 hfast.2]
    by_cases hsyn : isDecimalSyntax s = true
    · left
      have hsyn' := hsyn
      simp only [isDecimalSyntax, Bool.and_eq_true, Bool.not_eq_true', List.isEmpty_eq_false]
        at hsyn'
      have hlen : (dropSign s).length < 19 := by
        cases s with
        | nil => simp [dropSign]
        | cons c rest =>
          simp only [dropSign]
          split
          · simp only [List.length_cons] at hfast; omega
          · exact hfast.2
      have hv := digitsValue_lt_of_length _ hsyn'.2 hlen
      rw [hsyn]
      refine ⟨rfl, ?_, ?_, by simp⟩
      · rw [decimalValue_eq]
        simp only [minInt]
        split <;> omega
      · rw [decimalValue_eq]
        simp only [maxInt]
        split <;> omega
    · have hsyn' : isDecimalSyntax s = false := by simpa using hsyn
      right; right; right
      rw [hsyn']
      exact ⟨rfl, Or.inl (by simp [strconv.syntaxError])⟩
  · rw [strconv.Atoi_slow s hfast]
    by_cases hsyn : isDecimalSyntax s = true
    · rw [strconv.ParseInt_syntax s hsyn, decimalValue_eq]
      cases hneg : isNegative s with
      | true =>
        simp only [if_true]
        by_cases hfit : digitsValue (dropSign s) ≤ 2 ^ 63
        · left
          rw [if_pos hfit]
          refine ⟨hsyn, by simp only [minInt]; omega, by simp only [maxInt]; omega, ?_⟩
          simp only [Option.map_none']
          rw [int_of_range _ (by simp only [minInt]; omega) (by simp only [maxInt]; omega)]
        · right; left
          rw [if_neg hfit]
          refine ⟨hsyn, by simp only [minInt]; omega, trivial, ?_⟩
          simp only [Option.map_some', strconv.rangeError, hintmin]
      | false =>
        simp only [Bool.false_eq_true, if_false]
        by_cases hfit : digitsValue (dropSign s) ≤ 2 ^ 63 - 1
        · left
          rw [if_pos hfit]
          refine ⟨hsyn, by simp only [minInt]; omega, by simp only [maxInt]; omega, ?_⟩
          simp only [Option.map_none']
          rw [int_of_range _ (by simp only [minInt]; omega) (by simp only [maxInt]; omega)]
        · right; right; left
          rw [if_neg hfit]
          refine ⟨hsyn, by simp only [maxInt]; omega, trivial, ?_⟩
          simp only [Option.map_some', strconv.rangeError, hintmax]
    · have hsyn' : isDecimalSyntax s = false := by simpa using hsyn
      right; right; right
      refine ⟨hsyn', ?_⟩
      rcases strconv.ParseInt_not_syntax s hsyn' with h | h
      · left
        rw [h]
        simp only [Option.map_some', hint0]
      · right
        rw [h]
        simp only [Option.map_some']
        cases isNegative s with
        | true => simp only [if_true, hintmin]
        | false => simp only [Bool.false_eq_true, if_false, hintmax]

end Go

namespace Spec

open Go

theorem isCanonicalNat_all (ds : List byte) (h : isCanonicalNat ds = true) :
    ds ≠ [] ∧ ds.all isDigit = true := by
  cases ds with
  | nil => simp [isCanonicalNat] at h
  | cons c rest =>
    simp only [isCanonicalNat, Bool.and_eq_true] at h
    exact ⟨by simp, h.1⟩

/-- A canonical decimal text has the shape of a decimal integer. -/
theorem isDecimalSyntax_of_canonical (s : List byte) (h : isCanonicalDecimal s = true) :
    isDecimalSyntax s = true := by
  cases s with
  | nil => simp [isCanonicalDecimal] at h
  | cons c rest =>
    by_cases hc : c.val = 45
    · have hc45 : c = (45 : byte) := Fin.ext hc
      subst hc45
      rw [isCanonicalDecimal_minus] at h
      simp only [Bool.and_eq_true, decide_eq_true_eq] at h
      obtain ⟨hne, hall⟩ := isCanonicalNat_all rest h.1
      have hds : dropSign ((45 : byte) :: rest) = rest := rfl
      simp only [isDecimalSyntax, hds, hall, Bool.and_true, Bool.not_eq_true',
        List.isEmpty_eq_false]
      exact hne
    · rw [isCanonicalDecimal_digit c rest hc] at h
      obtain ⟨hne, hall⟩ := isCanonicalNat_all _ h
      have hall' := hall
      simp only [List.all_cons, Bool.and_eq_true] at hall'
      have hd := (isDigit_iff c).mp hall'.1
      have hds : dropSign (c :: rest) = c :: rest := by
        simp only [dropSign]
        rw [if_neg (by omega)]
      simp only [isDecimalSyntax, hds, hall, List.isEmpty_cons, Bool.not_false, Bool.and_self]

end Spec

/-! ## Theorems: `strconv.Atoi` and `strconv.Itoa` -/

/-- C2: round-trip law.  For every text `s` that is a canonical decimal integer
(minimal base-10 text, no leading zeros except the literal `0`, optional
leading `-`) whose value lies in the range of the 64-bit `int`,
`strconv.Atoi(s)` succeeds with that value and `strconv.Itoa` of the value is
exactly `s`. -/
theorem atoi_itoa_round_trip (s : List Go.byte) (hcan : Spec.isCanonicalDecimal s = true)
    (hlo : Go.minInt ≤ Spec.decimalValue s) (hhi : Spec.decimalValue s ≤ Go.maxInt) :
    Go.strconv.Atoi s = (Spec.decimalValue s, none) ∧
    Go.strconv.Itoa (Go.strconv.Atoi s).1 = some s := by
  have hsyn := Spec.isDecimalSyntax_of_canonical s hcan
  have hA : Go.strconv.Atoi s = (Spec.decimalValue s, none) := by
    rcases Go.strconv.Atoi_cases s with h | h | h | h
    · exact h.2.2.2
    · exact absurd hlo (not_le.mpr h.2.1)
    · exact absurd hhi (not_le.mpr h.2.1)
    · rw [hsyn] at h
      exact absurd h.1 (by simp)
  refine ⟨hA, ?_⟩
  rw [hA]
  simp only
  rw [Go.strconv.Itoa_eq _ hlo hhi, Spec.canonicalText_decimalValue s hcan]

/-- Witness of C2 at the text `"32"` that the program converts. -/
theorem atoi_itoa_round_trip_witness :
    (Spec.isCanonicalDecimal (Go.str "32") = true ∧
      Go.minInt ≤ Spec.decimalValue (Go.str "32") ∧
      Spec.decimalValue (Go.str "32") ≤ Go.maxInt) ∧
    Go.strconv.Atoi (Go.str "32") = (Spec.decimalValue (Go.str "32"), none) ∧
    Go.strconv.Itoa (Go.strconv.Atoi (Go.str "32")).1 = some (Go.str "32") :=
  ⟨⟨by decide, by decide, by decide⟩,
    atoi_itoa_round_trip (Go.str "32") (by decide) (by decide) (by decide)⟩

/-- C3, the claim as stated fails: the text `"+5"` contains the character
`+`, which is not a decimal digit and not a leading `-`, yet `strconv.Atoi`
does not fail on it: it returns 5 and no error.  The text is not empty and
its value does not overflow, so the non-numeric character is the one clause
of the claim it meets. -/
theorem atoi_accepts_plus_sign :
    (Go.str "+5").any (fun c => !Spec.isDigit c) = true ∧
    Spec.hasNonNumeric (Go.str "+5") = true ∧
    Go.str "+5" ≠ [] ∧
    Go.strconv.Atoi (Go.str "+5") = (5, none) ∧
    (Go.strconv.Atoi (Go.str "+5")).2 = none := by
  decide

/-- C3, amended: `strconv.Atoi` returns an error (a syntax error, with value
0) for the empty text, for `"abc"` and for `"3.14"`.  More generally it
succeeds exactly on the texts made of an optional leading sign, `-` or `+`,
and one or more decimal digits, whose value fits the 64-bit `int`, and then
returns that value; it fails on every other text: the empty text, a sign
alone, a text with any other byte that is not a digit, a text whose value
overflows.  A leading `+` is accepted. -/
theorem atoi_succeeds_iff (s : List Go.byte) :
    Go.strconv.Atoi (Go.str "") = (0, some ⟨"Atoi", Go.str "", Go.strconv.Err.ErrSyntax⟩) ∧
    Go.strconv.Atoi (Go.str "abc") =
      (0, some ⟨"Atoi", Go.str "abc", Go.strconv.Err.ErrSyntax⟩) ∧
    Go.strconv.Atoi (Go.str "3.14") =
      (0, some ⟨"Atoi", Go.str "3.14", Go.strconv.Err.ErrSyntax⟩) ∧
    ((Go.strconv.Atoi s).2 = none ↔
      (Spec.isDecimalSyntax s = true ∧
        Go.minInt ≤ Spec.decimalValue s ∧ Spec.decimalValue s ≤ Go.maxInt)) ∧
    ((Go.strconv.Atoi s).2 = none → (Go.strconv.Atoi s).1 = Spec.decimalValue s) ∧
    (s = [] → (Go.strconv.Atoi s).2 ≠ none) ∧
    ((Spec.dropSign s).any (fun c => !Spec.isDigit c) = true → (Go.strconv.Atoi s).2 ≠ none) ∧
    (Spec.dropSign s = [] → (Go.strconv.Atoi s).2 ≠ none) ∧
    ((Spec.isDecimalSyntax s = true ∧
        (Spec.decimalValue s < Go.minInt ∨ Go.maxInt < Spec.decimalValue s)) →
      (Go.strconv.Atoi s).2 ≠ none) ∧
    Go.strconv.Atoi (Go.str "+5") = (5, none) ∧
    Go.strconv.Atoi (Go.str "-") = (0, some ⟨"Atoi", Go.str "-", Go.strconv.Err.ErrSyntax⟩) ∧
    Go.strconv.Atoi (Go.str "+") = (0, some ⟨"Atoi", Go.str "+", Go.strconv.Err.ErrSyntax⟩) := by
  have hiff : (Go.strconv.Atoi s).2 = none ↔
      (Spec.isDecimalSyntax s = true ∧
        Go.minInt ≤ Spec.decimalValue s ∧ Spec.decimalValue s ≤ Go.maxInt) := by
    rcases Go.strconv.Atoi_cases s with h | h | h | h
    · rw [h.2.2.2]
      exact ⟨fun _ => ⟨h.1, h.2.1, h.2.2.1⟩, fun _ => rfl⟩
    · rw [h.2.2.2]
      constructor
      · intro hc; simp at hc
      · intro hc; exact absurd hc.2.1 (not_le.mpr h.2.1)
    · rw [h.2.2.2]
      constructor
      · intro hc; simp at hc
      · intro hc; exact absurd hc.2.2 (not_le.mpr h.2.1)
    · have hne : (Go.strconv.Atoi s).2 ≠ none := by
        rcases h.2 with h2 | h2 <;> rw [h2] <;> simp
      constructor
      · intro hc; exact absurd hc hne
      · intro hc
        rw [h.1] at hc
        exact absurd hc.1 (by simp)
  have hval : (Go.strconv.Atoi s).2 = none → (Go.strconv.Atoi s).1 = Spec.decimalValue s := by
    intro hok
    rcases Go.strconv.Atoi_cases s with h | h | h | h
    · rw [h.2.2.2]
    · rw [h.2.2.2] at hok; simp at hok
    · rw [h.2.2.2] at hok; simp at hok
    · rcases h.2 with h2 | h2 <;> rw [h2] at hok <;> simp at hok
  have hsyn : Spec.isDecimalSyntax s = false → (Go.strconv.Atoi s).2 ≠ none := by
    intro hns hok
    have := (hiff.mp hok).1
    rw [hns] at this
    exact Bool.noConfusion this
  refine ⟨by decide, by decide, by decide, hiff, hval, ?_, ?_, ?_, ?_, by decide, by decide,
    by decide⟩
  · intro hs
    subst hs
    exact hsyn rfl
  · intro hany
    apply hsyn
    simp only [Spec.isDecimalSyntax, Bool.and_eq_false_iff]
    right
    rw [List.any_eq_true] at hany
    obtain ⟨c, hc, hcd⟩ := hany
    cases hall : (Spec.dropSign s).all Spec.isDigit with
    | false => rfl
    | true =>
      have := List.all_eq_true.mp hall c hc
      rw [this] at hcd
      simp at hcd
  · intro hempty
    apply hsyn
    simp [Spec.isDecimalSyntax, hempty]
  · intro hov hok
    have h := hiff.mp hok
    rcases hov.2 with hv | hv
    · exact absurd h.2.1 (not_le.mpr hv)
    · exact absurd h.2.2 (not_le.mpr hv)

/-- C4, the claim as stated fails: on the text `"9223372036854775808"`, whose
value is one more than the largest `int`, `strconv.Atoi` returns a range error
and the value 9223372036854775807, not 0. -/
theorem atoi_range_error_value_nonzero :
    Go.strconv.Atoi (Go.str "9223372036854775808") =
      (9223372036854775807,
        some ⟨"Atoi", Go.str "9223372036854775808", Go.strconv.Err.ErrRange⟩) ∧
    (Go.strconv.Atoi (Go.str "9223372036854775808")).2 ≠ none ∧
    (Go.strconv.Atoi (Go.str "9223372036854775808")).1 ≠ 0 := by
  decide

/-! ## Lemmas: the errors of `ParseFloat` -/

namespace Go

open Spec

theorem strconv.assembleBits_inf (neg : Bool) :
    strconv.assembleBits 0 (2 ^ 11 - 1 + strconv.bias) neg = strconv.infBits neg := by
  cases neg <;> decide

theorem strconv.assembleBits_inf_hex (neg : Bool) :
    strconv.assembleBits (1 <<< 52) (2 ^ 11 + strconv.bias - 2 + 1) neg =
      strconv.infBits neg := by
  cases neg <;> decide

theorem strconv.floatBitsOverflow_fst (neg : Bool) :
    (strconv.floatBitsOverflow neg).1 = strconv.infBits neg :=
  strconv.assembleBits_inf neg

theorem strconv.floatBitsCarry_overflow (mant : Nat) (exp : Int) (neg : Bool)
    (h : (strconv.floatBitsCarry mant exp neg).2 = true) :
    (strconv.floatBitsCarry mant exp neg).1 = strconv.infBits neg := by
  unfold strconv.floatBitsCarry at h ⊢
  by_cases hm : mant = 2 <<< 52
  · rw [if_pos hm] at h ⊢
    by_cases he : exp + 1 - strconv.bias ≥ 2 ^ 11 - 1
    · rw [if_pos he]
      exact strconv.floatBitsOverflow_fst neg
    · rw [if_neg he] at h
      exact absurd h (by simp [strconv.floatBitsOut])
  · rw [if_neg hm] at h
    exact absurd h (by simp [strconv.floatBitsOut])

theorem strconv.floatBitsRound_overflow (num den : Nat) (exp : Int) (neg : Bool)
    (h : (strconv.floatBitsRound num den exp neg).2 = true) :
    (strconv.floatBitsRound num den exp neg).1 = strconv.infBits neg := by
  unfold strconv.floatBitsRound at h ⊢
  by_cases he : exp - strconv.bias ≥ 2 ^ 11 - 1
  · rw [if_pos he]
    exact strconv.floatBitsOverflow_fst neg
  · rw [if_neg he] at h ⊢
    exact strconv.floatBitsCarry_overflow _ _ _ h

/-- The overflow of `floatBits` is an infinity of the decimal's sign. -/
theorem strconv.floatBits_overflow (d : strconv.decimal) (h : (strconv.floatBits d).2 = true) :
    (strconv.floatBits d).1 = strconv.infBits d.neg := by
  unfold strconv.floatBits at h ⊢
  by_cases h1 : d.d = []
  · rw [if_pos h1] at h
    exact absurd h (by simp)
  · rw [if_neg h1] at h ⊢
    by_cases h2 : d.dp > 310
    · rw [if_pos h2]
      exact strconv.floatBitsOverflow_fst d.neg
    · rw [if_neg h2] at h ⊢
      by_cases h3 : d.dp < -330
      · rw [if_pos h3] at h
        exact absurd h (by simp)
      · rw [if_neg h3] at h ⊢
        by_cases h4 : d.dp - d.d.length ≥ 0
        · rw [if_pos h4] at h ⊢
          exact strconv.floatBitsRound_overflow _ _ _ _ h
        · rw [if_neg h4] at h ⊢
          exact strconv.floatBitsRound_overflow _ _ _ _ h

/-- The range error of `atofHex` comes with an infinity of the given sign. -/
theorem strconv.atofHexFinish_error (s : List byte) (mantissa : Nat) (exp : Int) (neg : Bool)
    (e : strconv.NumError) (h : (strconv.atofHexFinish s mantissa exp neg).2 = some e) :
    e = strconv.rangeError "ParseFloat" s ∧
    (strconv.atofHexFinish s mantissa exp neg).1 = strconv.infBits neg := by
  unfold strconv.atofHexFinish at h ⊢
  simp only at h ⊢
  split_ifs at h ⊢
  simp only [Option.some.injEq] at h
  exact ⟨h.symm, strconv.assembleBits_inf_hex neg⟩

theorem strconv.atofHex_error (s : List byte) (mantissa : Nat) (exp : Int) (neg trunc : Bool)
    (e : strconv.NumError) (h : (strconv.atofHex s mantissa exp neg trunc).2 = some e) :
    e = strconv.rangeError "ParseFloat" s ∧
    (strconv.atofHex s mantissa exp neg trunc).1 = strconv.infBits neg :=
  strconv.atofHexFinish_error s _ _ neg e h

theorem strconv.readFloat_neg (s : List byte) :
    (strconv.readFloat s).neg = isNegative s := by
  cases s with
  | nil => rfl
  | cons c rest => rfl

theorem strconv.decimalSet_neg (t : List byte) (d : strconv.decimal)
    (h : strconv.decimalSet t = some d) : d.neg = isNegative t := by
  cases t with
  | nil => simp [strconv.decimalSet] at h
  | cons c rest =>
    simp only [strconv.decimalSet, Option.map_eq_some'] at h
    obtain ⟨p, _, hp⟩ := h
    rw [← hp]
    rfl

theorem isNegative_take (s : List byte) (i : Nat) (h : s.take i ≠ []) :
    isNegative (s.take i) = isNegative s := by
  cases s with
  | nil => simp at h
  | cons c rest =>
    cases i with
    | zero => simp at h
    | succ k => rfl

/-- What `atof64` returns with an error: 0 with a syntax error, or the
infinity of the text's sign with a range error. -/
theorem strconv.atof64_error (s : List byte) (e : strconv.NumError)
    (h : (strconv.atof64 s).2.2 = some e) :
    (e = strconv.syntaxError "ParseFloat" s ∧ (strconv.atof64 s).1 = 0) ∨
    (e.Err = strconv.Err.ErrRange ∧
      (strconv.atof64 s).1 = strconv.infBits (isNegative s)) := by
  unfold strconv.atof64 at h ⊢
  cases hsp : strconv.special s with
  | some p =>
    rw [hsp] at h
    simp at h
  | none =>
    rw [hsp] at h
    simp only at h ⊢
    by_cases hok : (!(strconv.readFloat s).ok) = true
    · rw [if_pos hok] at h ⊢
      simp only [Option.some.injEq] at h
      exact Or.inl ⟨h.symm, rfl⟩
    · rw [if_neg hok] at h ⊢
      by_cases hhex : (strconv.readFloat s).hex = true
      · rw [if_pos hhex] at h ⊢
        simp only at h ⊢
        obtain ⟨he, hv⟩ := strconv.atofHex_error _ _ _ _ _ e h
        right
        refine ⟨?_, ?_⟩
        · rw [he]; rfl
        · rw [hv, strconv.readFloat_neg]
      · rw [if_neg hhex] at h ⊢
        cases hd : strconv.decimalSet (s.take (strconv.readFloat s).i) with
        | none =>
          rw [hd] at h
          simp only [Option.some.injEq] at h
          exact Or.inl ⟨h.symm, rfl⟩
        | some d =>
          rw [hd] at h
          simp only at h ⊢
          by_cases hov : (strconv.floatBits d).2 = true
          · rw [if_pos hov] at h
            simp only [Option.some.injEq] at h
            right
            refine ⟨?_, ?_⟩
            · rw [← h]; rfl
            · rw [strconv.floatBits_overflow d hov, strconv.decimalSet_neg _ d hd]
              congr 1
              apply isNegative_take
              intro hnil
              rw [hnil] at hd
              simp [strconv.decimalSet] at hd
          · rw [if_neg hov] at h
            simp at h

/-- What `ParseFloat` returns with an error: 0 with a syntax error, or the
infinity of the text's sign with a range error. -/
theorem strconv.ParseFloat_error (s : List byte) (e : strconv.NumError)
    (h : (strconv.ParseFloat s).2 = some e) :
    (e.Err = strconv.Err.ErrSyntax ∧ (strconv.ParseFloat s).1 = 0) ∨
    (e.Err = strconv.Err.ErrRange ∧
      (strconv.ParseFloat s).1 = strconv.infBits (isNegative s)) := by
  unfold strconv.ParseFloat at h ⊢
  by_cases hc : (strconv.atof64 s).2.1 ≠ s.length ∧
      strconv.notSyntaxError (strconv.atof64 s).2.2 = true
  · rw [if_pos hc] at h ⊢
    simp only [Option.some.injEq] at h
    left
    exact ⟨by rw [← h]; rfl, rfl⟩
  · rw [if_neg hc] at h ⊢
    simp only at h ⊢
    rcases strconv.atof64_error s e h with ⟨he, hv⟩ | ⟨he, hv⟩
    · left
      exact ⟨by rw [he]; rfl, hv⟩
    · right
      exact ⟨he, hv⟩

end Go

/-- C4, amended: when `strconv.Atoi` or `strconv.ParseFloat(s, 64)` fails,
the error is a syntax error or a range error.  With a syntax error the value
is the zero value, 0 or 0.0.  With a range error (the value is out of range
for the target) the value is not the zero value but the nearest end of the
range, of the sign of the text: 9223372036854775807 or -9223372036854775808
for `Atoi`, `+Inf` or `-Inf` for `ParseFloat`; so `ParseFloat("1e400", 64)`
gives `+Inf` with a range error, and `ParseFloat("abc", 64)` gives 0.0 with a
syntax error. -/
theorem conversion_error_value (s : List Go.byte) :
    (∀ e, (Go.strconv.Atoi s).2 = some e →
      (e.Err = Go.strconv.Err.ErrSyntax ∨ e.Err = Go.strconv.Err.ErrRange) ∧
      (e.Err = Go.strconv.Err.ErrSyntax → (Go.strconv.Atoi s).1 = 0) ∧
      (e.Err = Go.strconv.Err.ErrRange →
        (Go.strconv.Atoi s).1 =
          if Spec.isNegative s then (-9223372036854775808 : Int) else 9223372036854775807)) ∧
    (∀ e, (Go.strconv.ParseFloat s).2 = some e →
      (e.Err = Go.strconv.Err.ErrSyntax ∨ e.Err = Go.strconv.Err.ErrRange) ∧
      (e.Err = Go.strconv.Err.ErrSyntax → (Go.strconv.ParseFloat s).1 = 0) ∧
      (e.Err = Go.strconv.Err.ErrRange →
        (Go.strconv.ParseFloat s).1 =
          if Spec.isNegative s then (0xFFF0000000000000 : Nat) else 0x7FF0000000000000)) ∧
    Go.strconv.ParseFloat (Go.str "1e400") =
      (0x7FF0000000000000, some ⟨"ParseFloat", Go.str "1e400", Go.strconv.Err.ErrRange⟩) ∧
    Go.strconv.ParseFloat (Go.str "-1e400") =
      (0xFFF0000000000000, some ⟨"ParseFloat", Go.str "-1e400", Go.strconv.Err.ErrRange⟩) ∧
    Go.strconv.ParseFloat (Go.str "abc") =
      (0, some ⟨"ParseFloat", Go.str "abc", Go.strconv.Err.ErrSyntax⟩) ∧
    Go.strconv.ParseFloat (Go.str "") =
      (0, some ⟨"ParseFloat", Go.str "", Go.strconv.Err.ErrSyntax⟩) ∧
    Go.strconv.Atoi (Go.str "-9223372036854775809") =
      (-9223372036854775808,
        some ⟨"Atoi", Go.str "-9223372036854775809", Go.strconv.Err.ErrRange⟩) := by
  refine ⟨?_, ?_, by decide!, by decide!, by decide!, by decide!, by decide!⟩
  · intro e h
    have hmin : Go.minInt = -9223372036854775808 := by decide
    have hmax : Go.maxInt = 9223372036854775807 := by decide
    rcases Go.strconv.Atoi_cases s with h1 | h1 | h1 | h1
    · rw [h1.2.2.2] at h
      exact absurd h (by simp)
    · obtain ⟨_, _, hneg, hA⟩ := h1
      rw [hA] at h ⊢
      simp only [Option.some.injEq] at h
      subst h
      simp [hneg, hmin]
    · obtain ⟨_, _, hneg, hA⟩ := h1
      rw [hA] at h ⊢
      simp only [Option.some.injEq] at h
      subst h
      simp [hneg, hmax]
    · rcases h1.2 with hA | hA
      · rw [hA] at h ⊢
        simp only [Option.some.injEq] at h
        subst h
        simp
      · rw [hA] at h ⊢
        simp only [Option.some.injEq] at h
        subst h
        cases Spec.isNegative s <;> simp [hmin, hmax]
  · intro e h
    rcases Go.strconv.ParseFloat_error s e h with ⟨he, hv⟩ | ⟨he, hv⟩
    · refine ⟨Or.inl he, fun _ => hv, ?_⟩
      intro hr
      rw [he] at hr
      exact absurd hr (by decide)
    · refine ⟨Or.inr he, ?_, ?_⟩
      · intro hs
        rw [he] at hs
        exact absurd hs (by decide)
      · intro _
        rw [hv]
        cases Spec.isNegative s <;> rfl


/-! ## Lemmas: steps of the `Printf` loop -/

namespace Go

open Spec

theorem fmt.doPrintfLoop_literal (a : List fmt.Value) (c : byte) (rest : List byte) (n : Nat)
    (buf : List byte) (h : c.val ≠ 37) :
    fmt.doPrintfLoop a (c :: rest) n buf = fmt.doPrintfLoop a rest n (buf ++ [c]) := by
  conv_lhs => rw [fmt.doPrintfLoop.eq_def]
  simp only [h, ne_eq, not_false_eq_true, if_true]

/-- A directive `%d` whose operand is an `int` in range appends the canonical
text of the operand. -/
theorem fmt.doPrintfLoop_d (a : List fmt.Value) (rest : List byte) (n : Nat)
    (buf : List byte) (v : Int) (hget : a.get? n = some (.int v))
    (hlo : minInt ≤ v) (hhi : v ≤ maxInt) :
    fmt.doPrintfLoop a ((37 : byte) :: (100 : byte) :: rest) n buf =
      fmt.doPrintfLoop a rest (n + 1) (buf ++ canonicalText v) := by
  have hp : fmt.printArg (.int v) (100 : byte) = some (canonicalText v) := by
    rw [← fmt.fmtInteger_signed v hlo hhi]
    rfl
  have h1 : ¬ ((37 : byte).val ≠ 37) := by decide
  have h2 : fmt.complexDirective (100 : byte) = false := by decide
  have h3 : ¬ ((100 : byte).val = 37) := by decide
  have h4 : ¬ ((100 : byte).val = 119) := by decide
  simp only [fmt.doPrintfLoop, h1, h2, h3, h4, if_false, hget, hp, Bool.false_eq_true]

end Go

/-! ## Theorems: `fmt` printing -/

/-- C7: `Sprintf` substitutes the placeholders left to right with the
positional operands.  For all `int` values `a`, `b`, `c`,
`Sprintf("%d + %d = %d", a, b, c)` is the canonical decimal text of `a`, then
`" + "`, then that of `b`, then `" = "`, then that of `c`, and nothing else;
`Sprintf("%d + %d = %d", 2, 3, 5)` is exactly `"2 + 3 = 5"`. -/
theorem sprintf_sum (a b c : Int)
    (ha : Go.minInt ≤ a ∧ a ≤ Go.maxInt) (hb : Go.minInt ≤ b ∧ b ≤ Go.maxInt)
    (hc : Go.minInt ≤ c ∧ c ≤ Go.maxInt) :
    Go.fmt.Sprintf (Go.str "%d + %d = %d") [.int a, .int b, .int c] =
      some (Spec.canonicalText a ++ Go.str " + " ++ Spec.canonicalText b ++
        Go.str " = " ++ Spec.canonicalText c) ∧
    (Spec.isCanonicalDecimal (Spec.canonicalText a) = true ∧
      Spec.decimalValue (Spec.canonicalText a) = a) ∧
    (Spec.isCanonicalDecimal (Spec.canonicalText b) = true ∧
      Spec.decimalValue (Spec.canonicalText b) = b) ∧
    (Spec.isCanonicalDecimal (Spec.canonicalText c) = true ∧
      Spec.decimalValue (Spec.canonicalText c) = c) ∧
    Go.fmt.Sprintf (Go.str "%d + %d = %d") [.int 2, .int 3, .int 5] =
      some (Go.str "2 + 3 = 5") := by
  refine ⟨?_, ⟨Spec.isCanonicalDecimal_canonicalText a, Spec.decimalValue_canonicalText a⟩,
    ⟨Spec.isCanonicalDecimal_canonicalText b, Spec.decimalValue_canonicalText b⟩,
    ⟨Spec.isCanonicalDecimal_canonicalText c, Spec.decimalValue_canonicalText c⟩, by decide⟩
  have hf : Go.str "%d + %d = %d" =
      [37, 100, 32, 43, 32, 37, 100, 32, 61, 32, 37, 100] := by decide
  have hs1 : Go.str " + " = [32, 43, 32] := by decide
  have hs2 : Go.str " = " = [32, 61, 32] := by decide
  rw [hf, hs1, hs2]
  unfold Go.fmt.Sprintf Go.fmt.doPrintf
  rw [Go.fmt.doPrintfLoop_d [.int a, .int b, .int c] _ 0 _ a rfl ha.1 ha.2,
    Go.fmt.doPrintfLoop_literal _ _ _ _ _ (by decide),
    Go.fmt.doPrintfLoop_literal _ _ _ _ _ (by decide),
    Go.fmt.doPrintfLoop_literal _ _ _ _ _ (by decide),
    Go.fmt.doPrintfLoop_d [.int a, .int b, .int c] _ 1 _ b rfl hb.1 hb.2,
    Go.fmt.doPrintfLoop_literal _ _ _ _ _ (by decide),
    Go.fmt.doPrintfLoop_literal _ _ _ _ _ (by decide),
    Go.fmt.doPrintfLoop_literal _ _ _ _ _ (by decide),
    Go.fmt.doPrintfLoop_d [.int a, .int b, .int c] _ 2 _ c rfl hc.1 hc.2]
  simp [Go.fmt.doPrintfLoop]

/-- Witness of C7 at the operands 2, 3, 5 of the program's `Printf` call. -/
theorem sprintf_sum_witness :
    Go.fmt.Sprintf (Go.str "%d + %d = %d") [.int 2, .int 3, .int 5] =
      some (Spec.canonicalText 2 ++ Go.str " + " ++ Spec.canonicalText 3 ++
        Go.str " = " ++ Spec.canonicalText 5) ∧
    Go.fmt.Sprintf (Go.str "%d + %d = %d") [.int 2, .int 3, .int 5] =
      some (Go.str "2 + 3 = 5") :=
  ⟨(sprintf_sum 2 3 5 (by decide) (by decide) (by decide)).1,
    (sprintf_sum 2 3 5 (by decide) (by decide) (by decide)).2.2.2.2⟩

/-- C8: a `%T` placeholder renders the type identifier of its operand and not
its value.  For every `int32` operand `x`, `Sprintf("%T", x)` is `"int32"`,
whatever `x` is; for `int32(5)` it is not `"5"`; and the `int`, `int8`,
`int32` and `int64` operands of unit 2 render as `int`, `int8`, `int32` and
`int64`. -/
theorem sprintf_type_name (x : Int) :
    Go.fmt.Sprintf (Go.str "%T") [.int32 x] = some (Go.str "int32") ∧
    Go.fmt.Sprintf (Go.str "%T") [.int32 5] ≠ some (Go.str "5") ∧
    Go.fmt.Sprintf (Go.str "%T") [.int Go.unit2.i] = some (Go.str "int") ∧
    Go.fmt.Sprintf (Go.str "%T") [.int8 Go.unit2.i8] = some (Go.str "int8") ∧
    Go.fmt.Sprintf (Go.str "%T") [.int64 Go.unit2.i64] = some (Go.str "int64") ∧
    Go.unit2.printfTypes =
      some (Go.str "Type of i: int , i8: int8, i32: int32, i64: int64\n") := by
  refine ⟨rfl, by decide, by decide, by decide, by decide, by decide⟩

/-- C10: a fixed-width conversion is the identity on the values that fit the
target.  For every integer `v`, `int8(v) = v` when `-128 ≤ v ≤ 127`,
`int32(v) = v` when `-2^31 ≤ v ≤ 2^31 - 1`, and `int64(v) = v` when
`-2^63 ≤ v ≤ 2^63 - 1`; for `i = 32` in unit 2 the three conversions give 32
and `fmt.Println(i,i8,i32,i64)` writes the line `32 32 32 32`, ended by the
newline that `Println` appends. -/
theorem fixed_width_identity_on_fit (v : Int) :
    ((-128 ≤ v ∧ v ≤ 127) → Go.int8 v = v) ∧
    ((-2 ^ 31 ≤ v ∧ v ≤ 2 ^ 31 - 1) → Go.int32 v = v) ∧
    ((-2 ^ 63 ≤ v ∧ v ≤ 2 ^ 63 - 1) → Go.int64 v = v) ∧
    (Go.unit2.i8 = 32 ∧ Go.unit2.i32 = 32 ∧ Go.unit2.i64 = 32) ∧
    Go.unit2.printlnValues = some (Go.str "32 32 32 32\n") := by
  refine ⟨?_, ?_, ?_, ⟨by decide, by decide, by decide⟩, by decide⟩
  · intro h
    simp only [Go.int8, Go.ToFixedWidth, Go.truncateSigned, if_true]
    split <;> omega
  · intro h
    simp only [Go.int32, Go.ToFixedWidth, Go.truncateSigned, if_true]
    split <;> omega
  · intro h
    simp only [Go.int64, Go.ToFixedWidth, Go.truncateSigned, if_true]
    split <;> omega

/-! ## Theorems: `fmt` scanning in unit 1 -/

/-- C6, the claim as stated fails: run on the input `"Paul\nSmith\n29\n"`,
the call `fmt.Scan(&firstName)` does not stop before the whitespace that
follows the token.  It reads the newline after `Paul` as one rune of
lookahead, and that rune is gone from `os.Stdin` when the call returns: the
input left is `"Smith\n29\n"`, not `"\nSmith\n29\n"`.  Had the newline been
left, the following `fmt.Scanln(&lastName)` would have stored nothing and
returned the error `unexpected newline`. -/
theorem scan_consumes_newline_after_token :
    (Go.unit1.main (Go.str "Paul\nSmith\n29\n")).scan1.stdin = Go.str "Smith\n29\n" ∧
    (Go.unit1.main (Go.str "Paul\nSmith\n29\n")).scan1.stdin ≠ Go.str "\nSmith\n29\n" ∧
    Go.fmt.Scanln (Go.str "\nSmith\n29\n") [.string] =
      { stored := [], n := 0, err := some (.errorString (Go.str "unexpected newline")),
        stdin := Go.str "Smith\n29\n" } := by
  decide!

/-- C6, amended: run on the input `"Paul\nSmith\n29\n"`, the calls
`fmt.Scan(&firstName)`, `fmt.Scanln(&lastName)`, `fmt.Scanf("%d", &age)`
return no error and leave `firstName = "Paul"`, `lastName = "Smith"`,
`age = 29`; `fmt.Scan` consumes the token and the newline that follows it,
`fmt.Scanln` the line with its newline, `fmt.Scanf` the digits and the newline
that follows them; `Sprintf("Hi %s %s, you are %d years old!", ...)` on the
three values is `"Hi Paul Smith, you are 29 years old!"`, and the program's
output ends with that text and a newline. -/
theorem read_scenario :
    (Go.unit1.main (Go.str "Paul\nSmith\n29\n")).scan1 =
      { stored := [.string (Go.str "Paul")], n := 1, err := none,
        stdin := Go.str "Smith\n29\n" } ∧
    (Go.unit1.main (Go.str "Paul\nSmith\n29\n")).scan2 =
      { stored := [.string (Go.str "Smith")], n := 1, err := none, stdin := Go.str "29\n" } ∧
    (Go.unit1.main (Go.str "Paul\nSmith\n29\n")).scan3 =
      { stored := [.int 29], n := 1, err := none, stdin := [] } ∧
    (Go.unit1.main (Go.str "Paul\nSmith\n29\n")).firstName = Go.str "Paul" ∧
    (Go.unit1.main (Go.str "Paul\nSmith\n29\n")).lastName = Go.str "Smith" ∧
    (Go.unit1.main (Go.str "Paul\nSmith\n29\n")).age = 29 ∧
    Go.fmt.Sprintf (Go.str "Hi %s %s, you are %d years old!")
      [.string (Go.unit1.main (Go.str "Paul\nSmith\n29\n")).firstName,
       .string (Go.unit1.main (Go.str "Paul\nSmith\n29\n")).lastName,
       .int (Go.unit1.main (Go.str "Paul\nSmith\n29\n")).age] =
      some (Go.str "Hi Paul Smith, you are 29 years old!") ∧
    (Go.unit1.main (Go.str "Paul\nSmith\n29\n")).stdout =
      some (Go.str ("This is fmt.Print (no newline) | This is fmt.Println (with newline)\n" ++
        "This is fmt.Printf with formatting: 2 + 3 = 5\n" ++
        "hello, Paul! Welcome to Go.\n" ++
        "Enter your first name: Enter your last name: Enter your age: " ++
        "Hi Paul Smith, you are 29 years old!\n")) := by
  decide!

/-- The comment at `fmt.Scanln(&lastName)` in unit 1 says the call reads
until the newline.  With one `*string` target it stores the first word only:
on the line `"Paul Smith\n"` it stores `"Paul"`, returns the error
`expected newline` and leaves `"mith\n"` unread, the `S` having been read as
lookahead.  Run on the input `"Paul Smith 29\n"`, `main` ends with
`firstName = "Paul"`, `lastName = "Smith"` and `age = 9`. -/
theorem scanln_stores_first_word :
    Go.fmt.Scanln (Go.str "Paul Smith\n") [.string] =
      { stored := [.string (Go.str "Paul")], n := 1,
        err := some (.errorString (Go.str "expected newline")),
        stdin := Go.str "mith\n" } ∧
    (Go.unit1.main (Go.str "Paul Smith 29\n")).firstName = Go.str "Paul" ∧
    (Go.unit1.main (Go.str "Paul Smith 29\n")).lastName = Go.str "Smith" ∧
    (Go.unit1.main (Go.str "Paul Smith 29\n")).scan2.err =
      some (.errorString (Go.str "expected newline")) ∧
    (Go.unit1.main (Go.str "Paul Smith 29\n")).age = 9 := by
  decide!

/-- The text `-0` denotes 0 but is not its canonical text, and it does not
survive the round trip: `Atoi` accepts it and `Itoa` gives back `0`. -/
theorem atoi_itoa_minus_zero :
    Spec.isCanonicalDecimal (Go.str "-0") = false ∧
    Go.strconv.Atoi (Go.str "-0") = (0, none) ∧
    Go.strconv.Itoa 0 = some (Go.str "0") := by
  decide

/-! ## Theorems: `strconv.ParseFloat` and the verb `%f` -/

/-- C9: `strconv.ParseFloat("3.14159", 64)` succeeds, with the `float64` of
bits `0x400921F9F01B866E`, which is `7074231776675438 / 2^51`, less than half
a unit in the last place away from 3.14159; rendering that value with `%f`
gives exactly `"3.141590"`, fixed-point text with 6 fractional digits, and the
program's `Printf` writes `newf64 value is 3.141590 with type float64`. -/
theorem parse_float_renders_six_digits :
    Go.strconv.ParseFloat (Go.str "3.14159") = (0x400921F9F01B866E, none) ∧
    Go.unit2.newf64Err = (0x400921F9F01B866E, none) ∧
    (0x400921F9F01B866E : Nat) = 1024 * 2 ^ 52 + (7074231776675438 - 2 ^ 52) ∧
    2 * (314159 * 2 ^ 51 - 7074231776675438 * 100000 : Int).natAbs < 100000 ∧
    Go.fmt.Sprintf (Go.str "%f") [.float64 (Go.strconv.ParseFloat (Go.str "3.14159")).1] =
      some (Go.str "3.141590") ∧
    Go.unit2.printfNewf64 =
      some (Go.str "newf64 value is 3.141590 with type float64\n") := by
  decide!
